import Mathlib

/-!
Verification development for the task-tracking markdown utilities:
`update_task_status.py`, `validate_spec_artifacts.py` and
`validate_skill_alignment.py`.

Documents are modelled as `List Char` (Python strings are sequences of
unicode code points).  The regular-expression operations used by the
scripts are embedded as executable functions that reproduce the exact
backtracking semantics of the patterns appearing in the source:

* update pattern: `^(###\s+{task_id}[\s:]+)(.+?)(\s*\([^)]+\)|\s*[...])?\s*$`
  with `re.MULTILINE`, used via `re.subn`;
* list pattern: `^###\s+(T\d{3})[:\s]+(.+?)$` with `re.MULTILINE`,
  used via `re.finditer`;
* validator search pattern: `^###\s+T\d{3}` with `re.MULTILINE`.

Note that the source file stores the four status markers as mojibake
character sequences (the UTF-8 bytes of the intended emoji decoded as
cp1252), e.g. `"pending"` maps to the two-character string `"â³"`.
The embedding reproduces those exact sequences, and the single-character
alternatives of the bracket class in the update pattern.
-/

namespace TaskTrack

/-- The closed status enumeration of `update_task_status.py`. -/
inductive Status where
  | pending
  | in_progress
  | completed
  | blocked
deriving DecidableEq, Fintype, Repr

/-- Dictionary order of `STATUS_EMOJI` (Python dicts preserve insertion order). -/
def statusList : List Status := [.pending, .in_progress, .completed, .blocked]

/-- The status keyword strings (keys of `STATUS_EMOJI`). -/
def statusKey : Status → List Char
  | .pending => "pending".toList
  | .in_progress => "in_progress".toList
  | .completed => "completed".toList
  | .blocked => "blocked".toList

/-- The marker sequences stored in `STATUS_EMOJI` (values of the dict).
The source file contains mojibake: each value is a short sequence of
Latin-1/cp1252 characters, not a single emoji code point. -/
def emojiSeq : Status → List Char
  | .pending => ['â', '³']
  | .in_progress => ['ð', 'Ÿ', '”', '„']
  | .completed => ['â', 'œ', '…']
  | .blocked => ['ð', 'Ÿ', 'š', '«']

/-- The characters of the bracket class `[â³ðŸ”„âœ…ðŸš«]` in the update
pattern, in source order (duplicates kept; membership is what matters). -/
def emojiClassChars : List Char :=
  ['â', '³', 'ð', 'Ÿ', '”', '„', 'â', 'œ', '…', 'ð', 'Ÿ', 'š', '«']

/-- Membership in the bracket class of the update pattern. -/
def isEmojiClass (c : Char) : Bool := emojiClassChars.contains c

/-- Python's `\s` (and `str.strip`) whitespace, restricted to the ASCII
whitespace characters which are the only ones these documents use. -/
def pyWs (c : Char) : Bool :=
  c = ' ' || c = '\t' || c = '\n' || c = '\r' ||
  c = Char.ofNat 11 || c = Char.ofNat 12

/-- `str.strip()`: remove whitespace from both ends. -/
def pyStrip (l : List Char) : List Char :=
  ((l.dropWhile pyWs).reverse.dropWhile pyWs).reverse

/-- Membership test in `STATUS_EMOJI` (`new_status not in STATUS_EMOJI`). -/
def statusOfString (s : List Char) : Option Status :=
  if s = statusKey .pending then some .pending
  else if s = statusKey .in_progress then some .in_progress
  else if s = statusKey .completed then some .completed
  else if s = statusKey .blocked then some .blocked
  else none

/-- First `f a = some b` along the list, in order; models ordered
backtracking alternatives (earlier candidates have priority). -/
def firstSome (f : α → Option β) : List α → Option β
  | [] => none
  | a :: l =>
    match f a with
    | some b => some b
    | none => firstSome f l

/-- `[n, n-1, ..., 1]`: greedy quantifier candidates, longest first. -/
def revRange1 : Nat → List Nat
  | 0 => []
  | n + 1 => (n + 1) :: revRange1 n

/-- `[n, n-1, ..., 0]`: greedy `\s*` candidates, longest first. -/
def revRange0 : Nat → List Nat
  | 0 => [0]
  | n + 1 => (n + 1) :: revRange0 n

/-- `[1, 2, ..., n]`: lazy quantifier candidates, shortest first. -/
def ascRange : Nat → List Nat
  | 0 => []
  | n + 1 => ascRange n ++ [n + 1]

/-- Substring occurrence (Python `in` on strings). -/
def occursIn (pat s : List Char) : Bool :=
  (List.range (s.length + 1)).any (fun n => pat.isPrefixOf (s.drop n))

/-- `str.replace(pat, "")`: delete non-overlapping occurrences of `pat`,
scanning left to right.  Fueled for kernel evaluability; fuel
`s.length + 1` always suffices since each step consumes a character. -/
def removeSeqGo (pat : List Char) : Nat → List Char → List Char
  | 0, s => s
  | _ + 1, [] => []
  | fuel + 1, c :: s =>
    if pat ≠ [] ∧ pat.isPrefixOf (c :: s) then
      removeSeqGo pat fuel ((c :: s).drop pat.length)
    else
      c :: removeSeqGo pat fuel s

def removeSeq (pat s : List Char) : List Char :=
  removeSeqGo pat (s.length + 1) s

/-- One iteration of the loop in `replace_status`:
`description = description.replace(emoji, "").strip()`. -/
def stripLoopStep (d : List Char) (seq : List Char) : List Char :=
  pyStrip (removeSeq seq d)

/-- `replace_status`'s transformation of the captured description:
`group(2).strip()`, then the strip/replace loop over `STATUS_EMOJI`. -/
def replDesc (g2 : List Char) : List Char :=
  (statusList.map emojiSeq).foldl stripLoopStep (pyStrip g2)

/-! ## The update pattern

`^(###\s+{task_id}[\s:]+)(.+?)(\s*\([^)]+\)|\s*[class])?\s*$` in
MULTILINE mode.  A match attempt only succeeds at a line start.  The
quantifier semantics encoded below:

* `\s+` after `###` can only take its maximal run, because the literal
  task id that follows starts with the non-whitespace `T`;
* `[\s:]+` is greedy: candidates are tried longest first;
* `(.+?)` is lazy: candidates are tried shortest first, each character
  matched by `.` is any character other than `'\n'`;
* group 3 tries the parenthesis alternative, then the class alternative,
  then absence.  Inside the alternatives `\s*` and `[^)]+` can only take
  their maximal runs (the next literal is not matchable by them);
* the final `\s*` is greedy, and `$` holds before `'\n'` or at the end,
  so it takes the longest whitespace prefix after which `$` holds.
-/

/-- `$` in MULTILINE mode: end of string or just before a newline. -/
def endOk (v : List Char) : Bool := v.isEmpty || v.head? == some '\n'

/-- Trailing `\s*$`: number of whitespace characters consumed, greedy. -/
def matchEndWS (u : List Char) : Option Nat :=
  firstSome (fun j => if endOk (u.drop j) then some j else none)
    (revRange0 ((u.takeWhile pyWs).length))

/-- Group-3 alternative `\s*\([^)]+\)` followed by `\s*$`; returns the
total number of characters consumed from `u` to the match end. -/
def g3Paren (u : List Char) : Option Nat :=
  let w := u.takeWhile pyWs
  match u.drop w.length with
  | c :: u2 =>
    if c = '(' then
      let body := u2.takeWhile (fun x => !(x == ')'))
      if body.isEmpty then none
      else
        match u2.drop body.length with
        | c2 :: u3 =>
          if c2 = ')' then
            (matchEndWS u3).map (fun t => w.length + 1 + body.length + 1 + t)
          else none
        | [] => none
    else none
  | [] => none

/-- Group-3 alternative `\s*[class]` followed by `\s*$`. -/
def g3Class (u : List Char) : Option Nat :=
  let w := u.takeWhile pyWs
  match u.drop w.length with
  | c :: u2 =>
    if isEmojiClass c then
      (matchEndWS u2).map (fun t => w.length + 1 + t)
    else none
  | [] => none

/-- Everything after group 2: optional group 3 (two alternatives, in
order), then `\s*$`; returns characters consumed from `u`. -/
def matchTail (u : List Char) : Option Nat :=
  match g3Paren u with
  | some t => some t
  | none =>
    match g3Class u with
    | some t => some t
    | none => matchEndWS u

/-- Result of a successful match of the update pattern at a position:
text of group 1, text of group 2, and total length of the match. -/
structure MatchR where
  g1 : List Char
  g2 : List Char
  consumed : Nat
deriving DecidableEq, Repr

/-- One candidate of the lazy group 2: take `k` characters, then match
the rest of the pattern; `base` is the length of groups 1 and before. -/
def innerK (cs rest3 : List Char) (base : Nat) (k : Nat) : Option MatchR :=
  match matchTail (rest3.drop k) with
  | some t => some ⟨cs.take base, rest3.take k, base + k + t⟩
  | none => none

/-- One candidate of the greedy `[\s:]+`: give it `j` characters, then
run the lazy group 2 (shortest first, each character non-newline). -/
def outerJ (cs rest2 : List Char) (pre : Nat) (j : Nat) : Option MatchR :=
  let rest3 := rest2.drop j
  let cap := (rest3.takeWhile (fun c => !(c == '\n'))).length
  firstSome (innerK cs rest3 (pre + j)) (ascRange cap)

/-- Match attempt of the update pattern at the start of `cs` (which the
scanner only performs at a line start). -/
def tryMatch (tid : List Char) (cs : List Char) : Option MatchR :=
  match cs with
  | c1 :: c2 :: c3 :: rest0 =>
    if c1 = '#' ∧ c2 = '#' ∧ c3 = '#' then
      let ws1 := rest0.takeWhile pyWs
      if ws1.isEmpty then none
      else
        let rest1 := rest0.drop ws1.length
        if tid.isPrefixOf rest1 then
          let rest2 := rest1.drop tid.length
          let sep := rest2.takeWhile (fun c => pyWs c || c = ':')
          if sep.isEmpty then none
          else
            firstSome (outerJ cs rest2 (3 + ws1.length + tid.length))
              (revRange1 sep.length)
        else none
    else none
  | _ => none

/-- `re.subn` scan for the update pattern: walk the text, attempting a
match at every line start; on a match, emit the replacement
`f"{prefix}{emoji} {description}"` and resume at the match end.  Fueled
for kernel evaluability; each step consumes at least one character, so
fuel `cs.length + 1` suffices. -/
def subnGo (tid : List Char) (st : Status) :
    Nat → Bool → List Char → List Char × Nat
  | 0, _, cs => (cs, 0)
  | _ + 1, _, [] => ([], 0)
  | fuel + 1, atStart, c :: cs' =>
    if atStart then
      match tryMatch tid (c :: cs') with
      | some m =>
        if m.consumed = 0 then (c :: cs', 0)
        else
          let rest := (c :: cs').drop m.consumed
          let nextStart := ((c :: cs').take m.consumed).getLast? == some '\n'
          let p := subnGo tid st fuel nextStart rest
          (m.g1 ++ emojiSeq st ++ (' ' :: replDesc m.g2) ++ p.1, p.2 + 1)
      | none =>
        let p := subnGo tid st fuel (c == '\n') cs'
        (c :: p.1, p.2)
    else
      let p := subnGo tid st fuel (c == '\n') cs'
      (c :: p.1, p.2)

/-- `subnGo` with always-sufficient fuel, from a given line-start state. -/
def subnF (tid : List Char) (st : Status) (atStart : Bool) (cs : List Char) :
    List Char × Nat :=
  subnGo tid st (cs.length + 1) atStart cs

/-- `re.subn(pattern, replace_status, content, flags=re.MULTILINE)`:
updated content and match count. -/
def subnTask (tid : List Char) (st : Status) (cs : List Char) :
    List Char × Nat :=
  subnF tid st true cs

/-! ## The list pattern -/

/-- Result of a match of the list pattern `^###\s+(T\d{3})[:\s]+(.+?)$`:
group 1 (the task id), group 2 (raw description), match length. -/
structure ListMatchR where
  tidStr : List Char
  descRaw : List Char
  consumed : Nat
deriving DecidableEq, Repr

/-- Match attempt of the list pattern at the start of `cs`.  `(.+?)$` is
lazy but is forced to extend to the next line end, so group 2 is the
maximal run of non-newline characters (which must be nonempty). -/
def listMatch (cs : List Char) : Option ListMatchR :=
  match cs with
  | c1 :: c2 :: c3 :: rest0 =>
    if c1 = '#' ∧ c2 = '#' ∧ c3 = '#' then
      let ws1 := rest0.takeWhile pyWs
      if ws1.isEmpty then none
      else
        match rest0.drop ws1.length with
        | t :: d1 :: d2 :: d3 :: rest2 =>
          if t = 'T' ∧ d1.isDigit ∧ d2.isDigit ∧ d3.isDigit then
            let sep := rest2.takeWhile (fun c => c = ':' || pyWs c)
            if sep.isEmpty then none
            else
              firstSome (fun j =>
                let rest3 := rest2.drop j
                let desc := rest3.takeWhile (fun c => !(c == '\n'))
                if desc.isEmpty then none
                else some ⟨['T', d1, d2, d3], desc,
                           3 + ws1.length + 4 + j + desc.length⟩)
                (revRange1 sep.length)
          else none
        | _ => none
    else none
  | _ => none

/-- `re.finditer` scan for the list pattern: ordered matches, each as
(group 1, `group(2).strip()`). -/
def listGo : Nat → Bool → List Char → List (List Char × List Char)
  | 0, _, _ => []
  | _ + 1, _, [] => []
  | fuel + 1, atStart, c :: cs' =>
    if atStart then
      match listMatch (c :: cs') with
      | some m =>
        if m.consumed = 0 then []
        else
          (m.tidStr, pyStrip m.descRaw) ::
            listGo fuel (((c :: cs').take m.consumed).getLast? == some '\n')
              ((c :: cs').drop m.consumed)
      | none => listGo fuel (c == '\n') cs'
    else listGo fuel (c == '\n') cs'

/-- `listGo` with always-sufficient fuel. -/
def listF (atStart : Bool) (cs : List Char) : List (List Char × List Char) :=
  listGo (cs.length + 1) atStart cs

/-- Status detection of `list_tasks`: first status in dictionary order
whose marker sequence or `({status_key})` occurs in the description,
defaulting to `pending`. -/
def hasMarkerB (s : Status) (d : List Char) : Bool :=
  occursIn (emojiSeq s) d || occursIn ('(' :: statusKey s ++ [')']) d

def inferStatus (d : List Char) : Status :=
  (statusList.find? (fun s => hasMarkerB s d)).getD .pending

/-- The tuples reported by `list_tasks`: identifier, description
truncated to 60 characters (`description[:60]`), detected status. -/
def listTasksEntries (cs : List Char) :
    List (List Char × List Char × Status) :=
  (listF true cs).map (fun e => (e.1, e.2.take 60, inferStatus e.2))

/-! ## `update_task_status` and `main` -/

/-- The messages printed by `update_task_status` and `main`, as an
abstract datatype (the scripts print formatted strings). -/
inductive UpdMsg where
  | fileNotFound
  | invalidStatus
  | notFound
  | multipleMatches (n : Nat)
  | updated (st : Status)
deriving DecidableEq, Repr

/-- `update_task_status(tasks_file, task_id, new_status)`.  The target
file is modelled as `Option (List Char)` (`none` = file does not
exist); `written` is the content passed to `write_text`, or `none` when
no write happens. -/
structure UpdResult where
  success : Bool
  written : Option (List Char)
  msgs : List UpdMsg
deriving DecidableEq, Repr

def updateTaskStatus (file : Option (List Char)) (tid : List Char)
    (statusStr : List Char) : UpdResult :=
  match file with
  | none => ⟨false, none, [.fileNotFound]⟩
  | some content =>
    match statusOfString statusStr with
    | none => ⟨false, none, [.invalidStatus]⟩
    | some st =>
      let r := subnTask tid st content
      if r.2 = 0 then ⟨false, none, [.notFound]⟩
      else if r.2 > 1 then
        ⟨true, some r.1, [.multipleMatches r.2, .updated st]⟩
      else ⟨true, some r.1, [.updated st]⟩

/-- Messages observable from `main` (including `list_tasks` output). -/
inductive MainMsg where
  | usage
  | invalidArgs
  | invalidTaskId
  | fileNotFound
  | taskList (entries : List (List Char × List Char × Status))
  | upd (m : UpdMsg)
deriving DecidableEq, Repr

structure MainRes where
  exitCode : Nat
  written : Option (List Char)
  msgs : List MainMsg
deriving DecidableEq, Repr

/-- `list_tasks(tasks_file)`: prints an error when the file is missing
(and returns `None`), otherwise prints the entries. -/
def listTasksRun (file : Option (List Char)) : List MainMsg :=
  match file with
  | none => [.fileNotFound]
  | some content => [.taskList (listTasksEntries content)]

/-- `^T\d{3}$` check of `main` on the (already uppercased) id. -/
def validTaskIdStr (tid : List Char) : Bool :=
  match tid with
  | [t, a, b, c] => t = 'T' && a.isDigit && b.isDigit && c.isDigit
  | _ => false

/-- `main()`: `args` models `sys.argv[1:]` (file path, then optional id
and status); `file` is the content of the referenced tasks file if it
exists.  List mode always exits 0, even when `list_tasks` only printed
a not-found error. -/
def mainRun (args : List (List Char)) (file : Option (List Char)) :
    MainRes :=
  match args with
  | [] => ⟨1, none, [.usage]⟩
  | [_] => ⟨0, none, listTasksRun file⟩
  | [_, a, b] =>
    let tid := a.map Char.toUpper
    let st := b.map Char.toLower
    if validTaskIdStr tid then
      let r := updateTaskStatus file tid st
      ⟨if r.success then 0 else 1, r.written, r.msgs.map .upd⟩
    else ⟨1, none, [.invalidTaskId]⟩
  | _ => ⟨1, none, [.invalidArgs]⟩

/-! ## `validate_spec_artifacts` -/

/-- State of one required file inside a spec directory. -/
inductive FileState where
  | absent
  | notFile
  | file (content : List Char)
deriving DecidableEq, Repr

/-- A spec directory: existence/kind flags plus the three required
files. -/
structure SpecDir where
  dirExists : Bool
  isDir : Bool
  requirements : FileState
  plan : FileState
  tasks : FileState
deriving DecidableEq, Repr

/-- The `ValidationError` messages of `validate_spec_artifacts.py`. -/
inductive VErr where
  | dirMissing
  | notADir
  | missingFile (name : List Char)
  | notAFile (name : List Char)
  | missingSections (name : List Char) (secs : List (List Char))
  | noTaskFormat
deriving DecidableEq, Repr

/-- `validate_file_exists`. -/
def validateFileExists (name : List Char) (fs : FileState) :
    Except VErr (List Char) :=
  match fs with
  | .absent => .error (.missingFile name)
  | .notFile => .error (.notAFile name)
  | .file c => .ok c

/-- `validate_file_sections`: every required section must occur as a
literal substring. -/
def validateFileSections (name : List Char) (content : List Char)
    (secs : List (List Char)) : Except VErr Unit :=
  let missing := secs.filter (fun s => !occursIn s content)
  if missing.isEmpty then .ok () else .error (.missingSections name missing)

/-- `^###\s+T\d{3}` matches at position `cs` (a line start). -/
def taskHeadingAt (cs : List Char) : Bool :=
  match cs with
  | c1 :: c2 :: c3 :: rest0 =>
    (c1 = '#' && c2 = '#' && c3 = '#') &&
    (let ws1 := rest0.takeWhile pyWs
     !ws1.isEmpty &&
      (match rest0.drop ws1.length with
       | t :: a :: b :: c :: _ =>
         t = 'T' && a.isDigit && b.isDigit && c.isDigit
       | _ => false))
  | _ => false

def hasTaskHeadingGo : Bool → List Char → Bool
  | _, [] => false
  | atStart, c :: cs' =>
    (atStart && taskHeadingAt (c :: cs')) || hasTaskHeadingGo (c == '\n') cs'

/-- `re.search(r"^###\s+T\d{3}", content, re.MULTILINE)` is not `None`. -/
def hasTaskHeading (content : List Char) : Bool :=
  hasTaskHeadingGo true content

/-- `validate_tasks_format`. -/
def validateTasksFormat (content : List Char) : Except VErr Unit :=
  if hasTaskHeading content then .ok () else .error .noTaskFormat

def reqName : List Char := "requirements.md".toList
def planName : List Char := "plan.md".toList
def tasksName : List Char := "tasks.md".toList

def reqSections : List (List Char) :=
  ["## Overview".toList, "## Requirements".toList]
def planSections : List (List Char) := ["## Implementation Phases".toList]
def tasksSections : List (List Char) := ["## Tasks".toList]

/-- `validate_spec_directory`: the whole rule chain runs inside one
`try`/`except ValidationError`, so the first violated rule aborts the
remaining checks and `errors` collects at most that one reason. -/
def validateSpecDirectory (d : SpecDir) : Bool × List VErr :=
  if !d.dirExists then (false, [.dirMissing])
  else if !d.isDir then (false, [.notADir])
  else
    match
      (do
        let rc ← validateFileExists reqName d.requirements
        let pc ← validateFileExists planName d.plan
        let tc ← validateFileExists tasksName d.tasks
        let _ ← validateFileSections reqName rc reqSections
        let _ ← validateFileSections planName pc planSections
        let _ ← validateFileSections tasksName tc tasksSections
        validateTasksFormat tc : Except VErr Unit) with
    | .ok _ => (true, [])
    | .error e => (false, [e])

/-! ## `validate_skill_alignment` -/

inductive Sev where
  | error
  | warning
deriving DecidableEq, Repr

inductive Cat where
  | requirements
  | plan
  | tasks
  | general
deriving DecidableEq, Repr

/-- The messages of `AlignmentIssue`, abstracted. -/
inductive AMsg where
  | missingSecs (secs : List (List Char))
  | extraSecs (secs : List (List Char))
  | fmtMismatch
  | noExamples
  | noSectionPattern (pat : List Char)
deriving DecidableEq, Repr

structure Issue where
  sev : Sev
  cat : Cat
  msg : AMsg
deriving DecidableEq, Repr

/-- Python `set(a) != set(b)` on string lists. -/
def sameSet (a b : List (List Char)) : Bool :=
  a.all (fun x => b.contains x) && b.all (fun x => a.contains x)

/-- The per-category section comparison of `validate_alignment`
(`missing` as error, `extra` as warning). -/
def sectionIssues (c : Cat) (expected promised : List (List Char)) :
    List Issue :=
  if sameSet expected promised then []
  else
    let missing := expected.filter (fun x => !promised.contains x)
    let extra := promised.filter (fun x => !expected.contains x)
    (if !missing.isEmpty then [⟨.error, c, .missingSecs missing⟩] else []) ++
      (if !extra.isEmpty then [⟨.warning, c, .extraSecs extra⟩] else [])

/-- The task-format comparison of `validate_alignment`.  The regex test
`re.match(task_pattern, full_example)` is an oracle parameter: the
extracted pattern is arbitrary source text and its matching is not
needed by the claims. -/
def taskFmtIssues (taskPat : Option (List Char))
    (examples : List (List Char))
    (reMatchOracle : List Char → List Char → Bool) : List Issue :=
  match taskPat with
  | none => []
  | some p =>
    if p.isEmpty then []
    else
      match examples with
      | ex :: _ =>
        if reMatchOracle p ("- [ ] ".toList ++ ex) then []
        else [⟨.error, .tasks, .fmtMismatch⟩]
      | [] => [⟨.warning, .tasks, .noExamples⟩]

/-- The tasks-section comparison of `validate_alignment`. -/
def taskSecIssues (tasksSecsE tasksSecsP : List (List Char)) : List Issue :=
  match tasksSecsE with
  | [] => []
  | e0 :: _ =>
    match tasksSecsP with
    | [] => [⟨.error, .tasks, .noSectionPattern e0⟩]
    | p0 :: _ =>
      if occursIn e0 p0 then [] else [⟨.error, .tasks, .noSectionPattern e0⟩]

/-- The comparison phase of `validate_alignment` (both input files
exist), parameterised by the extracted expectation/promise data. -/
def validateAlignmentChecks (reqE reqP planE planP tasksE tasksP :
    List (List Char)) (taskPat : Option (List Char))
    (examples : List (List Char))
    (reMatchOracle : List Char → List Char → Bool) : List Issue :=
  sectionIssues .requirements reqE reqP ++
    sectionIssues .plan planE planP ++
    taskFmtIssues taskPat examples reMatchOracle ++
    taskSecIssues tasksE tasksP

/-- Exit logic of the alignment checker's `main`: fail iff any error
exists, regardless of warnings. -/
def alignExitCode (issues : List Issue) : Nat :=
  if (issues.filter (fun i => i.sev == Sev.error)).isEmpty then 0 else 1

/-! ## Structured documents

The universal update-then-list theorems are stated over documents in a
well-formed shape: a sequence of lines, each either a task heading
`### Tddd: [marker ]description` or a free-text line.  The shape
restrictions below are exactly what keeps the update pattern's
backtracking inside one line (see the counterexamples for what happens
outside this shape). -/

/-- Position of a status in the dictionary order of `STATUS_EMOJI`. -/
def statusRank : Status → Nat
  | .pending => 0
  | .in_progress => 1
  | .completed => 2
  | .blocked => 3

/-- A document line: a task heading with an optional status marker, or
a free-text line. -/
inductive DocItem where
  | task (id : List Char) (mark : Option Status) (desc : List Char)
  | text (l : List Char)
deriving DecidableEq, Repr

/-- The marker-plus-description portion of a rendered task heading. -/
def bodyOf (mark : Option Status) (desc : List Char) : List Char :=
  match mark with
  | some st => emojiSeq st ++ (' ' :: desc)
  | none => desc

/-- Render one line (no trailing newline). -/
def renderItem : DocItem → List Char
  | .task id mark desc =>
    '#' :: '#' :: '#' :: ' ' :: (id ++ ':' :: ' ' :: bodyOf mark desc)
  | .text l => l

/-- Render a document, lines separated by single newlines. -/
def renderDoc : List DocItem → List Char
  | [] => []
  | [i] => renderItem i
  | i :: is => renderItem i ++ '\n' :: renderDoc is

/-- Characters allowed in a well-formed description: ASCII letters,
digits and spaces. -/
def cleanChar (c : Char) : Bool := c.isAlphanum || c = ' '

/-- A well-formed description: nonempty, of clean characters, with no
leading or trailing space. -/
def cleanDescB (d : List Char) : Bool :=
  !d.isEmpty && d.all cleanChar && !(d.head? == some ' ') &&
    !(d.getLast? == some ' ')

def CleanDesc (d : List Char) : Prop := cleanDescB d = true

/-- First character allowed for a line that follows a task heading: it
must not let the heading's trailing `\s*`/group-3 backtracking reach
into the next line. -/
def safeHeadB (c : Char) : Bool :=
  !pyWs c && !(c == '(') && !isEmojiClass c

/-- Well-formedness of one line.  Free-text lines are nonempty, contain
no newline, do not start with `#` (so no match can start on them), and
start with a safe character.  Task lines have a well-formed id and a
clean description. -/
def itemOkB : DocItem → Bool
  | .task id _ desc => validTaskIdStr id && cleanDescB desc
  | .text l =>
    !l.isEmpty && l.all (fun c => !(c == '\n')) &&
      !(l.head? == some '#') &&
      (match l.head? with
       | some c => safeHeadB c
       | none => true)

def ItemOk (i : DocItem) : Prop := itemOkB i = true

/-- Well-formedness of a whole document. -/
def DocOk (items : List DocItem) : Prop := ∀ i ∈ items, ItemOk i

/-- Updating one item: set the mark of every task heading carrying the
given id. -/
def setTarget (tid : List Char) (st : Status) : DocItem → DocItem
  | .task id m d => if id = tid then .task id (some st) d else .task id m d
  | .text l => .text l

/-- Number of task headings carrying the given id. -/
def targetCount (tid : List Char) (items : List DocItem) : Nat :=
  items.countP (fun i =>
    match i with
    | .task id _ _ => id == tid
    | .text _ => false)

/-- The listing entry contributed by one line: task headings yield
their id and rendered body, text lines yield nothing. -/
def rawEntry : DocItem → Option (List Char × List Char)
  | .task id m d => some (id, bodyOf m d)
  | .text _ => none

/-- Identifier and detected status contributed by one line. -/
def statusEntry : DocItem → Option (List Char × Status)
  | .task id m _ => some (id, m.getD .pending)
  | .text _ => none

/-- The (identifier, status) pairs reported by `list_tasks`. -/
def listedStatuses (cs : List Char) : List (List Char × Status) :=
  (listTasksEntries cs).map (fun e => (e.1, e.2.2))

/-- Shape of the text that follows a rendered line during the scan:
either the end of the document, or a newline followed by a line whose
first character cannot extend a match (see `safeHeadB`). -/
def SafeTail (u : List Char) : Prop :=
  u = [] ∨ ∃ c v, u = '\n' :: c :: v ∧ safeHeadB c = true

/-! ## Helper lemmas -/

theorem firstSome_cons_some {f : α → Option β} {a : α} {l : List α} {b : β}
    (h : f a = some b) : firstSome f (a :: l) = some b := by
  simp [firstSome, h]

theorem firstSome_cons_none {f : α → Option β} {a : α} {l : List α}
    (h : f a = none) : firstSome f (a :: l) = firstSome f l := by
  simp [firstSome, h]

theorem firstSome_eq_none {f : α → Option β} {l : List α}
    (h : ∀ a ∈ l, f a = none) : firstSome f l = none := by
  induction l with
  | nil => rfl
  | cons a l ih =>
    rw [firstSome_cons_none (h a (List.mem_cons_self a l))]
    exact ih fun x hx => h x (List.mem_cons_of_mem a hx)

theorem firstSome_append_none {f : α → Option β} {l₁ l₂ : List α}
    (h : ∀ a ∈ l₁, f a = none) :
    firstSome f (l₁ ++ l₂) = firstSome f l₂ := by
  induction l₁ with
  | nil => rfl
  | cons a l ih =>
    rw [List.cons_append,
      firstSome_cons_none (h a (List.mem_cons_self a l))]
    exact ih fun x hx => h x (List.mem_cons_of_mem a hx)

theorem takeWhile_all {p : α → Bool} :
    ∀ {l : List α}, (∀ a ∈ l, p a = true) → l.takeWhile p = l
  | [], _ => rfl
  | a :: l, h => by
    rw [List.takeWhile_cons, if_pos (h a (List.mem_cons_self a l))]
    exact congrArg (a :: ·) (takeWhile_all fun x hx => h x (List.mem_cons_of_mem a hx))

theorem takeWhile_length_lt {p : α → Bool} :
    ∀ {l : List α}, (∃ a ∈ l, p a = false) →
      (l.takeWhile p).length < l.length
  | [], h => by simp at h
  | a :: l, h => by
    rw [List.takeWhile_cons]
    by_cases hp : p a = true
    · rw [if_pos hp]
      have : ∃ x ∈ l, p x = false := by
        obtain ⟨x, hx, hpx⟩ := h
        rcases List.mem_cons.1 hx with rfl | hx
        · exact absurd hp (by simp [hpx])
        · exact ⟨x, hx, hpx⟩
      simpa using takeWhile_length_lt this
    · rw [if_neg hp]
      simp

theorem takeWhile_append_left {p : α → Bool} {l u : List α}
    (h : ∃ a ∈ l, p a = false) :
    (l ++ u).takeWhile p = l.takeWhile p := by
  rw [List.takeWhile_append, if_neg (Nat.ne_of_lt (takeWhile_length_lt h))]

theorem dropWhile_append_left {p : α → Bool} :
    ∀ {l : List α} (u : List α), (∃ a ∈ l, p a = false) →
      (l ++ u).dropWhile p = l.dropWhile p ++ u
  | [], _, h => by simp at h
  | a :: l, u, h => by
    rw [List.cons_append, List.dropWhile_cons, List.dropWhile_cons]
    by_cases hp : p a = true
    · rw [if_pos hp, if_pos hp]
      have : ∃ x ∈ l, p x = false := by
        obtain ⟨x, hx, hpx⟩ := h
        rcases List.mem_cons.1 hx with rfl | hx
        · exact absurd hp (by simp [hpx])
        · exact ⟨x, hx, hpx⟩
      exact dropWhile_append_left u this
    · rw [if_neg hp, if_neg hp, List.cons_append]

theorem dropWhile_all {p : α → Bool} :
    ∀ {l : List α}, (∀ a ∈ l, p a = true) → l.dropWhile p = []
  | [], _ => rfl
  | a :: l, h => by
    rw [List.dropWhile_cons, if_pos (h a (List.mem_cons_self a l))]
    exact dropWhile_all fun x hx => h x (List.mem_cons_of_mem a hx)

theorem mem_of_mem_dropWhile {p : α → Bool} :
    ∀ {l : List α} {x : α}, x ∈ l.dropWhile p → x ∈ l
  | [], _, h => by simp [List.dropWhile] at h
  | a :: l, x, h => by
    rw [List.dropWhile_cons] at h
    by_cases hp : p a = true
    · rw [if_pos hp] at h
      exact List.mem_cons_of_mem a (mem_of_mem_dropWhile h)
    · rw [if_neg hp] at h
      exact h

theorem getLast?_append_right {l₁ l₂ : List α} (h : l₂ ≠ []) :
    (l₁ ++ l₂).getLast? = l₂.getLast? := by
  rw [List.getLast?_append]
  match l₂, h with
  | a :: l₂, _ =>
    have : (a :: l₂).getLast? = some ((a :: l₂).getLast (by simp)) :=
      List.getLast?_eq_getLast _ _
    rw [this]
    rfl

theorem isPrefixOf_self_append :
    ∀ (l u : List Char), l.isPrefixOf (l ++ u) = true
  | [], _ => by simp [List.isPrefixOf]
  | a :: l, u => by
    simp [List.isPrefixOf, isPrefixOf_self_append l u]

theorem isPrefixOf_length_le :
    ∀ {l m : List Char}, l.isPrefixOf m = true → l.length ≤ m.length
  | [], _, _ => by simp
  | a :: l, [], h => by simp [List.isPrefixOf] at h
  | a :: l, b :: m, h => by
    simp only [List.isPrefixOf, Bool.and_eq_true] at h
    simpa using isPrefixOf_length_le h.2

theorem eq_append_of_isPrefixOf :
    ∀ {l m : List Char}, l.isPrefixOf m = true → m = l ++ m.drop l.length
  | [], m, _ => rfl
  | a :: l, [], h => by simp [List.isPrefixOf] at h
  | a :: l, b :: m, h => by
    simp only [List.isPrefixOf, Bool.and_eq_true, beq_iff_eq] at h
    obtain ⟨rfl, h2⟩ := h
    simpa using eq_append_of_isPrefixOf h2

theorem isPrefixOf_append_of_length_eq :
    ∀ {a b : List Char} {x : List Char}, a.length = b.length →
      a.isPrefixOf (b ++ x) = true → a = b
  | [], [], _, _, _ => rfl
  | c :: a, d :: b, x, hl, h => by
    simp only [List.cons_append, List.isPrefixOf, Bool.and_eq_true,
      beq_iff_eq] at h
    obtain ⟨rfl, h2⟩ := h
    have := isPrefixOf_append_of_length_eq (x := x) (Nat.succ_injective hl) h2
    rw [this]

theorem occursIn_of_isPrefixOf_drop {pat s : List Char} {n : Nat}
    (h : pat.isPrefixOf (s.drop n) = true) : occursIn pat s = true := by
  by_cases hn : n ≤ s.length
  · exact List.any_eq_true.2 ⟨n, List.mem_range.2 (Nat.lt_succ_of_le hn), h⟩
  · have hdrop : s.drop n = [] :=
      List.drop_eq_nil_of_le (Nat.le_of_lt (Nat.lt_of_not_le hn))
    rw [hdrop] at h
    have : pat = [] := by
      cases pat with
      | nil => rfl
      | cons a l => simp [List.isPrefixOf] at h
    subst this
    exact List.any_eq_true.2 ⟨0, List.mem_range.2 (Nat.succ_pos _),
      by simp [List.isPrefixOf]⟩

theorem not_occursIn_tail {pat : List Char} {c : Char} {s : List Char}
    (h : occursIn pat (c :: s) = false) : occursIn pat s = false := by
  by_contra hs
  have hs' : occursIn pat s = true := by
    cases hos : occursIn pat s with
    | true => rfl
    | false => exact absurd hos hs
  obtain ⟨n, _, hn⟩ := List.any_eq_true.1 hs'
  have : pat.isPrefixOf ((c :: s).drop (n + 1)) = true := by
    simpa using hn
  rw [occursIn_of_isPrefixOf_drop this] at h
  simp at h

/-! ## Scanner step lemmas

`subnGo`/`listGo` consume at least one character per fuel unit, so any
fuel above the text length computes the same result; the `subnF`/`listF`
wrappers therefore satisfy clean one-step unfolding lemmas. -/

theorem subnGo_fuel_eq (tid : List Char) (st : Status) :
    ∀ (f : Nat) (g : Nat) (a : Bool) (cs : List Char), cs.length < f →
      cs.length < g → subnGo tid st f a cs = subnGo tid st g a cs := by
  intro f
  induction f with
  | zero => intro g a cs hf _; exact absurd hf (Nat.not_lt_zero _)
  | succ f ih =>
    intro g a cs hf hg
    match g, hg with
    | g + 1, hg =>
      match cs with
      | [] => rfl
      | c :: cs' =>
        have hlf : cs'.length < f := by
          have := Nat.lt_succ_iff.mp hf; simpa using this
        have hlg : cs'.length < g := by
          have := Nat.lt_succ_iff.mp hg; simpa using this
        cases a with
        | false =>
          simp only [subnGo, if_neg (by simp : ¬ (false = true))]
          rw [ih g (c == '\n') cs' hlf hlg]
        | true =>
          simp only [subnGo, if_pos rfl]
          cases hm : tryMatch tid (c :: cs') with
          | none => rw [ih g (c == '\n') cs' hlf hlg]
          | some m =>
            by_cases h0 : m.consumed = 0
            · simp [h0]
            · simp only [if_neg h0]
              have hrl : ((c :: cs').drop m.consumed).length < f := by
                rw [List.length_drop]
                have : m.consumed ≥ 1 := Nat.one_le_iff_ne_zero.mpr h0
                simp only [List.length_cons]
                omega
              have hrg : ((c :: cs').drop m.consumed).length < g := by
                rw [List.length_drop]
                have : m.consumed ≥ 1 := Nat.one_le_iff_ne_zero.mpr h0
                simp only [List.length_cons]
                omega
              rw [ih g (((c :: cs').take m.consumed).getLast? == some '\n')
                ((c :: cs').drop m.consumed) hrl hrg]
              simp

theorem subnF_nil (tid : List Char) (st : Status) (a : Bool) :
    subnF tid st a [] = ([], 0) := rfl

theorem subnF_not_start (tid : List Char) (st : Status) (c : Char)
    (cs' : List Char) :
    subnF tid st false (c :: cs') =
      ((c :: (subnF tid st (c == '\n') cs').1),
        (subnF tid st (c == '\n') cs').2) := rfl

theorem subnF_no_match {tid : List Char} (st : Status) {c : Char}
    {cs' : List Char} (h : tryMatch tid (c :: cs') = none) :
    subnF tid st true (c :: cs') =
      ((c :: (subnF tid st (c == '\n') cs').1),
        (subnF tid st (c == '\n') cs').2) := by
  simp only [subnF, subnGo, if_pos rfl, h, List.length_cons]
  simp

theorem subnF_match {tid : List Char} (st : Status) {c : Char}
    {cs' : List Char} {m : MatchR} (h : tryMatch tid (c :: cs') = some m)
    (h0 : m.consumed ≠ 0) :
    subnF tid st true (c :: cs') =
      (m.g1 ++ emojiSeq st ++ (' ' :: replDesc m.g2) ++
          (subnF tid st (((c :: cs').take m.consumed).getLast? == some '\n')
            ((c :: cs').drop m.consumed)).1,
        (subnF tid st (((c :: cs').take m.consumed).getLast? == some '\n')
          ((c :: cs').drop m.consumed)).2 + 1) := by
  have hrl : ((c :: cs').drop m.consumed).length < (c :: cs').length := by
    rw [List.length_drop]
    have : m.consumed ≥ 1 := Nat.one_le_iff_ne_zero.mpr h0
    simp only [List.length_cons]
    omega
  simp only [subnF, subnGo, if_pos rfl, h, if_neg h0, List.length_cons]
  rw [subnGo_fuel_eq tid st (cs'.length + 1)
    (((c :: cs').drop m.consumed).length + 1)
    (((c :: cs').take m.consumed).getLast? == some '\n')
    ((c :: cs').drop m.consumed) (by simpa using hrl) (Nat.lt_succ_self _)]
  simp

theorem listGo_fuel_eq :
    ∀ (f : Nat) (g : Nat) (a : Bool) (cs : List Char), cs.length < f →
      cs.length < g → listGo f a cs = listGo g a cs := by
  intro f
  induction f with
  | zero => intro g a cs hf _; exact absurd hf (Nat.not_lt_zero _)
  | succ f ih =>
    intro g a cs hf hg
    match g, hg with
    | g + 1, hg =>
      match cs with
      | [] => rfl
      | c :: cs' =>
        have hlf : cs'.length < f := by
          have := Nat.lt_succ_iff.mp hf; simpa using this
        have hlg : cs'.length < g := by
          have := Nat.lt_succ_iff.mp hg; simpa using this
        cases a with
        | false =>
          simp only [listGo, if_neg (by simp : ¬ (false = true))]
          exact ih g (c == '\n') cs' hlf hlg
        | true =>
          simp only [listGo, if_pos rfl]
          cases hm : listMatch (c :: cs') with
          | none => exact ih g (c == '\n') cs' hlf hlg
          | some m =>
            by_cases h0 : m.consumed = 0
            · simp [h0]
            · simp only [if_neg h0]
              have hrl : ((c :: cs').drop m.consumed).length < f := by
                rw [List.length_drop]
                have : m.consumed ≥ 1 := Nat.one_le_iff_ne_zero.mpr h0
                simp only [List.length_cons]
                omega
              have hrg : ((c :: cs').drop m.consumed).length < g := by
                rw [List.length_drop]
                have : m.consumed ≥ 1 := Nat.one_le_iff_ne_zero.mpr h0
                simp only [List.length_cons]
                omega
              rw [ih g (((c :: cs').take m.consumed).getLast? == some '\n')
                ((c :: cs').drop m.consumed) hrl hrg]
              simp

theorem listF_nil (a : Bool) : listF a [] = [] := rfl

theorem listF_not_start (c : Char) (cs' : List Char) :
    listF false (c :: cs') = listF (c == '\n') cs' := rfl

theorem listF_no_match {c : Char} {cs' : List Char}
    (h : listMatch (c :: cs') = none) :
    listF true (c :: cs') = listF (c == '\n') cs' := by
  simp only [listF, listGo, if_pos rfl, h, List.length_cons]
  simp

theorem listF_match {c : Char} {cs' : List Char} {m : ListMatchR}
    (h : listMatch (c :: cs') = some m) (h0 : m.consumed ≠ 0) :
    listF true (c :: cs') =
      (m.tidStr, pyStrip m.descRaw) ::
        listF (((c :: cs').take m.consumed).getLast? == some '\n')
          ((c :: cs').drop m.consumed) := by
  have hrl : ((c :: cs').drop m.consumed).length < (c :: cs').length := by
    rw [List.length_drop]
    have : m.consumed ≥ 1 := Nat.one_le_iff_ne_zero.mpr h0
    simp only [List.length_cons]
    omega
  simp only [listF, listGo, if_pos rfl, h, if_neg h0, List.length_cons]
  rw [listGo_fuel_eq (cs'.length + 1)
    (((c :: cs').drop m.consumed).length + 1)
    (((c :: cs').take m.consumed).getLast? == some '\n')
    ((c :: cs').drop m.consumed) (by simpa using hrl) (Nat.lt_succ_self _)]
  simp

/-! ## `tryMatch` requires the task id as a substring -/

theorem occursIn_of_tryMatch {tid cs : List Char} {m : MatchR}
    (h : tryMatch tid cs = some m) : occursIn tid cs = true := by
  match cs with
  | [] => exact absurd h (by simp [tryMatch])
  | [c1] => exact absurd h (by simp [tryMatch])
  | [c1, c2] => exact absurd h (by simp [tryMatch])
  | c1 :: c2 :: c3 :: rest0 =>
    simp only [tryMatch] at h
    split at h
    · split at h
      · exact absurd h (by simp)
      · split at h
        · have hpre :
              tid.isPrefixOf
                ((c1 :: c2 :: c3 :: rest0).drop
                  (3 + (rest0.takeWhile pyWs).length)) = true := by
            have harr : (c1 :: c2 :: c3 :: rest0).drop
                (3 + (rest0.takeWhile pyWs).length) =
                rest0.drop (rest0.takeWhile pyWs).length := by
              simp [List.drop_succ_cons, Nat.add_comm]
            rw [harr]
            assumption
          exact occursIn_of_isPrefixOf_drop hpre
        · exact absurd h (by simp)
    · exact absurd h (by simp)

theorem tryMatch_eq_none_of_not_occursIn {tid cs : List Char}
    (h : occursIn tid cs = false) : tryMatch tid cs = none := by
  cases hm : tryMatch tid cs with
  | none => rfl
  | some m => rw [occursIn_of_tryMatch hm] at h; simp at h

theorem subnF_id_of_not_occursIn {tid : List Char} (st : Status) :
    ∀ (cs : List Char) (a : Bool), occursIn tid cs = false →
      subnF tid st a cs = (cs, 0)
  | [], a, _ => rfl
  | c :: cs', a, h => by
    have htail : occursIn tid cs' = false := not_occursIn_tail h
    cases a with
    | false =>
      rw [subnF_not_start, subnF_id_of_not_occursIn st cs' (c == '\n') htail]
    | true =>
      rw [subnF_no_match st (tryMatch_eq_none_of_not_occursIn h),
        subnF_id_of_not_occursIn st cs' (c == '\n') htail]

theorem statusOfString_key (st : Status) :
    statusOfString (statusKey st) = some st := by
  cases st <;> rfl

/-! ## Claims about error handling and CLI behaviour -/

/-- C3.  A status string outside the enumeration (after lowercasing) is
rejected by the membership check before `read_text`/`write_text` run:
the process exits 1, nothing is written, and `update_task_status`
reports the invalid-status error. -/
theorem c3_invalid_status_no_write (file : Option (List Char))
    (f a s : List Char)
    (h : statusOfString (s.map Char.toLower) = none) :
    (mainRun [f, a, s] file).exitCode = 1 ∧
      (mainRun [f, a, s] file).written = none ∧
      (∀ content tid,
        updateTaskStatus (some content) tid (s.map Char.toLower) =
          ⟨false, none, [.invalidStatus]⟩) := by
  have hupd : ∀ (file' : Option (List Char)) (tid : List Char),
      (updateTaskStatus file' tid (s.map Char.toLower)).success = false ∧
        (updateTaskStatus file' tid (s.map Char.toLower)).written = none := by
    intro file' tid
    cases file' with
    | none => exact ⟨rfl, rfl⟩
    | some content => simp [updateTaskStatus, h]
  refine ⟨?_, ?_, ?_⟩
  · simp only [mainRun]
    split
    · obtain ⟨h1, _⟩ := hupd file (a.map Char.toUpper)
      simp [h1]
    · rfl
  · simp only [mainRun]
    split
    · obtain ⟨_, h2⟩ := hupd file (a.map Char.toUpper)
      simpa using h2
    · rfl
  · intro content tid
    simp [updateTaskStatus, h]

/-- Witness for C3 at the status string `"done"`. -/
theorem c3_invalid_status_no_write_w :
    statusOfString ("done".toList.map Char.toLower) = none ∧
      (mainRun ["tasks.md".toList, "T001".toList, "done".toList]
        (some ("### T001: x".toList))).exitCode = 1 ∧
      (mainRun ["tasks.md".toList, "T001".toList, "done".toList]
        (some ("### T001: x".toList))).written = none := by
  have h : statusOfString ("done".toList.map Char.toLower) = none := by decide
  obtain ⟨h1, h2, _⟩ := c3_invalid_status_no_write
    (some ("### T001: x".toList)) "tasks.md".toList "T001".toList
    "done".toList h
  exact ⟨h, h1, h2⟩

/-- C2.  If the (uppercased) well-formed task id does not occur in the
document, the pattern cannot match, so `update_task_status` reports the
task as not found with no write, and the process exits 1. -/
theorem c2_nonexistent_id_unchanged (content : List Char)
    (f a s : List Char)
    (hid : validTaskIdStr (a.map Char.toUpper) = true)
    (hocc : occursIn (a.map Char.toUpper) content = false) :
    (mainRun [f, a, s] (some content)).exitCode = 1 ∧
      (mainRun [f, a, s] (some content)).written = none := by
  simp only [mainRun, hid, if_pos]
  cases hst : statusOfString (s.map Char.toLower) with
  | none =>
    simp [updateTaskStatus, hst]
  | some st =>
    have hsubn : subnTask (a.map Char.toUpper) st content = (content, 0) :=
      subnF_id_of_not_occursIn st content true hocc
    simp [updateTaskStatus, hst, subnTask] at hsubn ⊢
    simp [hsubn]

/-- Witness for C2: updating `T001` in a document that only contains
`T002`. -/
theorem c2_nonexistent_id_unchanged_w :
    validTaskIdStr ("T001".toList.map Char.toUpper) = true ∧
      occursIn ("T001".toList.map Char.toUpper)
        ("## Tasks\n### T002: a".toList) = false ∧
      (mainRun ["tasks.md".toList, "T001".toList, "completed".toList]
        (some ("## Tasks\n### T002: a".toList))).exitCode = 1 ∧
      (mainRun ["tasks.md".toList, "T001".toList, "completed".toList]
        (some ("## Tasks\n### T002: a".toList))).written = none := by
  have h1 : validTaskIdStr ("T001".toList.map Char.toUpper) = true := by decide
  have h2 : occursIn ("T001".toList.map Char.toUpper)
      ("## Tasks\n### T002: a".toList) = false := by decide
  obtain ⟨h3, h4⟩ := c2_nonexistent_id_unchanged ("## Tasks\n### T002: a".toList)
    "tasks.md".toList "T001".toList "completed".toList h1 h2
  exact ⟨h1, h2, h3, h4⟩

/-- C5.  With a valid status and at least two matches, the rewrite is
written back (global substitution over all matches), the
multiple-match warning names the occurrence count, and the call still
succeeds. -/
theorem c5_multiple_matches_warn (content tid s : List Char) (st : Status)
    (hst : statusOfString s = some st)
    (hcount : 2 ≤ (subnTask tid st content).2) :
    updateTaskStatus (some content) tid s =
      ⟨true, some (subnTask tid st content).1,
        [.multipleMatches (subnTask tid st content).2, .updated st]⟩ := by
  simp only [updateTaskStatus, hst]
  have h0 : ¬ (subnTask tid st content).2 = 0 := by omega
  have h1 : (subnTask tid st content).2 > 1 := by omega
  simp [h0, h1]

/-- Witness for C5 on a document with two `T001` headings: both lines
are rewritten, the warning carries the count 2, and the result is a
success. -/
theorem c5_multiple_matches_warn_w :
    statusOfString "completed".toList = some .completed ∧
      (subnTask "T001".toList .completed
        ("### T001: a\n### T001: b".toList)).2 = 2 ∧
      updateTaskStatus (some ("### T001: a\n### T001: b".toList))
          "T001".toList "completed".toList =
        ⟨true, some ("### T001: âœ… a\n### T001: âœ… b".toList),
          [.multipleMatches 2, .updated .completed]⟩ := by
  refine ⟨by decide, by decide, ?_⟩
  rw [c5_multiple_matches_warn ("### T001: a\n### T001: b".toList)
    "T001".toList "completed".toList .completed (by decide) (by decide)]
  decide

/-- C9.  When the target file does not exist, update mode exits 1 as
the claim (and the spec) require, but list mode prints the not-found
error and still exits 0: the code contradicts the documented non-zero
exit for not-found errors. -/
theorem c9_list_mode_missing_file_exit_code :
    mainRun ["tasks.md".toList] none = ⟨0, none, [.fileNotFound]⟩ ∧
      (mainRun ["tasks.md".toList, "T001".toList, "completed".toList]
        none).exitCode = 1 ∧
      (mainRun ["tasks.md".toList, "T001".toList, "completed".toList]
        none).written = none := by
  exact ⟨rfl, rfl, rfl⟩

/-! ## The artifact validator (C7) -/

/-- Counterexample to C7.  In a directory where `requirements.md` is
missing and the existing `plan.md` lacks its required section, the
validator reports only the missing-file reason: the section check for
the existing `plan.md` is suppressed (the whole rule chain lives in one
`try`/`except`), contradicting the claimed accumulation. -/
theorem c7_counterexample :
    validateSpecDirectory
        ⟨true, true, .absent, .file "## Overview".toList,
          .file "## Tasks\n### T001: x".toList⟩ =
      (false, [.missingFile reqName]) ∧
      validateFileSections planName "## Overview".toList planSections =
        .error (.missingSections planName planSections) ∧
      VErr.missingSections planName planSections ∉
        (validateSpecDirectory
          ⟨true, true, .absent, .file "## Overview".toList,
            .file "## Tasks\n### T001: x".toList⟩).2 := by
  refine ⟨by decide, rfl, by decide⟩

/-- C7, amended.  The validator short-circuits at the first violated
rule: it returns at most one failure reason, success is equivalent to
an empty reason list, and when the three files exist with all required
sections but no task heading the single reason is the (distinct)
missing-task-format one. -/
theorem c7_amended_single_reason :
    (∀ d : SpecDir, (validateSpecDirectory d).2.length ≤ 1 ∧
      ((validateSpecDirectory d).1 = true ↔
        (validateSpecDirectory d).2 = [])) ∧
    (∀ (d : SpecDir) (rc pc tc : List Char), d.dirExists = true →
      d.isDir = true → d.requirements = .file rc → d.plan = .file pc →
      d.tasks = .file tc →
      (reqSections.filter (fun sec => !occursIn sec rc)).isEmpty = true →
      (planSections.filter (fun sec => !occursIn sec pc)).isEmpty = true →
      (tasksSections.filter (fun sec => !occursIn sec tc)).isEmpty = true →
      hasTaskHeading tc = false →
      validateSpecDirectory d = (false, [.noTaskFormat])) := by
  constructor
  · intro d
    simp only [validateSpecDirectory]
    split
    · simp
    · split
      · simp
      · split
        · simp
        · simp
  · rintro ⟨de, di, rf, pf, tf⟩ rc pc tc h1 h2 h3 h4 h5 h6 h7 h8 h9
    simp only at h3 h4 h5
    subst h3; subst h4; subst h5
    simp only at h1 h2
    subst h1; subst h2
    simp [validateSpecDirectory, validateFileExists, validateFileSections,
      validateTasksFormat, h6, h7, h8, h9, Bind.bind, Except.bind]

/-- Witness for C7's amended statement: the short-circuit bound on an
arbitrary failing directory, and the distinct no-task-format reason on
a directory whose files and sections are all present. -/
theorem c7_amended_single_reason_w :
    (validateSpecDirectory ⟨false, false, .absent, .absent, .absent⟩).2.length
        ≤ 1 ∧
      validateSpecDirectory
          ⟨true, true, .file "## Overview\n## Requirements".toList,
            .file "## Implementation Phases".toList,
            .file "## Tasks\nno tasks here".toList⟩ =
        (false, [.noTaskFormat]) := by
  refine ⟨(c7_amended_single_reason.1 _).1, ?_⟩
  exact c7_amended_single_reason.2
    ⟨true, true, .file "## Overview\n## Requirements".toList,
      .file "## Implementation Phases".toList,
      .file "## Tasks\nno tasks here".toList⟩
    "## Overview\n## Requirements".toList
    "## Implementation Phases".toList
    "## Tasks\nno tasks here".toList
    rfl rfl rfl rfl rfl (by decide) (by decide) (by decide) (by decide)

/-! ## The alignment checker (C8) -/

theorem sectionIssues_cat {c : Cat} {a b : List (List Char)} {i : Issue}
    (hi : i ∈ sectionIssues c a b) : i.cat = c := by
  unfold sectionIssues at hi
  split at hi
  · exact absurd hi (List.not_mem_nil i)
  · rcases List.mem_append.1 hi with h | h
    · split at h
      · simp at h
        rw [h]
      · exact absurd h (List.not_mem_nil i)
    · split at h
      · simp at h
        rw [h]
      · exact absurd h (List.not_mem_nil i)

theorem taskFmtIssues_cat {p : Option (List Char)}
    {e : List (List Char)} {o : List Char → List Char → Bool} {i : Issue}
    (hi : i ∈ taskFmtIssues p e o) : i.cat = Cat.tasks := by
  unfold taskFmtIssues at hi
  split at hi
  · exact absurd hi (List.not_mem_nil i)
  · split at hi
    · exact absurd hi (List.not_mem_nil i)
    · split at hi
      · split at hi
        · exact absurd hi (List.not_mem_nil i)
        · simp at hi
          rw [hi]
      · simp at hi
        rw [hi]

theorem taskSecIssues_cat {a b : List (List Char)} {i : Issue}
    (hi : i ∈ taskSecIssues a b) : i.cat = Cat.tasks := by
  unfold taskSecIssues at hi
  split at hi
  · exact absurd hi (List.not_mem_nil i)
  · split at hi
    · simp at hi
      rw [hi]
    · split at hi
      · exact absurd hi (List.not_mem_nil i)
      · simp at hi
        rw [hi]

/-- C8.  When the validator's extracted requirements sections are
`{"## Overview", "## Requirements"}` and the template promises only
`{"## Overview"}`, the checker emits exactly one requirements-category
error naming `## Requirements`, no requirements-category warning, and
the run fails (exit 1) because an error exists — whatever the other
categories contribute. -/
theorem c8_missing_requirements_section
    (planE planP tasksE tasksP : List (List Char))
    (taskPat : Option (List Char)) (examples : List (List Char))
    (oracle : List Char → List Char → Bool) :
    ((validateAlignmentChecks reqSections ["## Overview".toList]
        planE planP tasksE tasksP taskPat examples oracle).filter
        (fun i => i.cat == Cat.requirements && i.sev == Sev.error)) =
      [⟨.error, .requirements, .missingSecs ["## Requirements".toList]⟩] ∧
    ((validateAlignmentChecks reqSections ["## Overview".toList]
        planE planP tasksE tasksP taskPat examples oracle).filter
        (fun i => i.cat == Cat.requirements && i.sev == Sev.warning)) =
      [] ∧
    alignExitCode (validateAlignmentChecks reqSections
      ["## Overview".toList] planE planP tasksE tasksP taskPat examples
      oracle) = 1 := by
  have hA : sectionIssues Cat.requirements reqSections
      ["## Overview".toList] =
      [⟨.error, .requirements, .missingSecs ["## Requirements".toList]⟩] := by
    decide
  have hBnil : ∀ (p : Issue → Bool),
      (∀ i : Issue, i.cat = Cat.plan → p i = false) →
      (∀ i : Issue, i.cat = Cat.tasks → p i = false) →
      (sectionIssues Cat.plan planE planP ++
        (taskFmtIssues taskPat examples oracle ++
          taskSecIssues tasksE tasksP)).filter p = [] := by
    intro p hplan htasks
    apply List.filter_eq_nil_iff.2
    intro i hi
    rcases List.mem_append.1 hi with h | h
    · simp [hplan i (sectionIssues_cat h)]
    · rcases List.mem_append.1 h with h' | h'
      · simp [htasks i (taskFmtIssues_cat h')]
      · simp [htasks i (taskSecIssues_cat h')]
  refine ⟨?_, ?_, ?_⟩
  · rw [validateAlignmentChecks, List.append_assoc, List.append_assoc,
      List.filter_append, hA,
      hBnil _ (fun i hc => by simp [hc]) (fun i hc => by simp [hc])]
    decide
  · rw [validateAlignmentChecks, List.append_assoc, List.append_assoc,
      List.filter_append, hA,
      hBnil _ (fun i hc => by simp [hc]) (fun i hc => by simp [hc])]
    decide
  · have hmem : (⟨.error, .requirements,
        .missingSecs ["## Requirements".toList]⟩ : Issue) ∈
        validateAlignmentChecks reqSections ["## Overview".toList]
          planE planP tasksE tasksP taskPat examples oracle := by
      rw [validateAlignmentChecks, List.append_assoc, List.append_assoc, hA]
      exact List.mem_append.2 (Or.inl (List.mem_singleton.2 rfl))
    have hmemf : (⟨.error, .requirements,
        .missingSecs ["## Requirements".toList]⟩ : Issue) ∈
        (validateAlignmentChecks reqSections ["## Overview".toList]
          planE planP tasksE tasksP taskPat examples oracle).filter
          (fun i => i.sev == Sev.error) :=
      List.mem_filter.2 ⟨hmem, rfl⟩
    unfold alignExitCode
    rw [if_neg]
    intro hemp
    rw [List.isEmpty_iff.1 hemp] at hmemf
    exact List.not_mem_nil _ hmemf

/-- Witness for C8 at concrete inputs for the other categories. -/
theorem c8_missing_requirements_section_w :
    alignExitCode (validateAlignmentChecks reqSections
      ["## Overview".toList] planSections planSections
      tasksSections tasksSections none [] (fun _ _ => true)) = 1 :=
  (c8_missing_requirements_section planSections planSections
    tasksSections tasksSections none [] (fun _ _ => true)).2.2

/-! ## Status detection priority (C10) -/

/-- C10.  When a description carries markers of several statuses, the
lister reports the first match in the fixed enumeration order
`pending, in_progress, completed, blocked`, not the marker that occurs
first in the text: concretely, a description starting with the
completed marker followed by the in-progress marker is reported as
`in_progress`, and one starting with the blocked marker followed by
`(in_progress)` is reported as `in_progress`. -/
theorem c10_status_enum_priority :
    (∀ (d : List Char) (s : Status), hasMarkerB s d = true →
      (∀ s', statusRank s' < statusRank s → hasMarkerB s' d = false) →
      inferStatus d = s) ∧
    inferStatus "âœ… ðŸ”„".toList = .in_progress ∧
    inferStatus "a ðŸš« b (in_progress)".toList = .in_progress := by
  refine ⟨?_, by decide, by decide⟩
  intro d s h1 h2
  cases s with
  | pending => simp [inferStatus, statusList, List.find?, h1]
  | in_progress =>
    have h0 := h2 .pending (by decide)
    simp [inferStatus, statusList, List.find?, h0, h1]
  | completed =>
    have h0 := h2 .pending (by decide)
    have hone := h2 .in_progress (by decide)
    simp [inferStatus, statusList, List.find?, h0, hone, h1]
  | blocked =>
    have h0 := h2 .pending (by decide)
    have hone := h2 .in_progress (by decide)
    have htwo := h2 .completed (by decide)
    simp [inferStatus, statusList, List.find?, h0, hone, htwo, h1]

/-- Witness for C10: the enumeration-priority statement applied to a
description containing both the completed and the in-progress marker. -/
theorem c10_status_enum_priority_w :
    inferStatus "âœ… ðŸ”„ xyz".toList = .in_progress :=
  c10_status_enum_priority.1 "âœ… ðŸ”„ xyz".toList .in_progress
    (by decide) (by decide)

/-! ## Listing shape (C6) -/

/-- C6.  Listed descriptions are truncated to at most 60 characters; a
matched heading whose description carries no recognised marker is
listed as `pending`; and the entries come in textual first-appearance
order (concretely, `T003, T001, T002` stay in that order, not sorted).
The listing function is total by construction. -/
theorem c6_listing_shape :
    (∀ (cs : List Char) (e : List Char × List Char × Status),
      e ∈ listTasksEntries cs → e.2.1.length ≤ 60) ∧
    (∀ (cs : List Char) (i dsc : List Char), (i, dsc) ∈ listF true cs →
      (∀ s, hasMarkerB s dsc = false) →
      (i, dsc.take 60, Status.pending) ∈ listTasksEntries cs) ∧
    listTasksEntries "### T003: c\n### T001: a\n### T002: b".toList =
      [("T003".toList, "c".toList, .pending),
        ("T001".toList, "a".toList, .pending),
        ("T002".toList, "b".toList, .pending)] := by
  refine ⟨?_, ?_, by decide⟩
  · intro cs e he
    obtain ⟨x, _, rfl⟩ := List.mem_map.1 he
    simp [List.length_take]
  · intro cs i dsc hmem hnom
    have hinf : inferStatus dsc = .pending := by
      unfold inferStatus
      rw [List.find?_eq_none.2 (fun s _ => by simp [hnom s])]
      rfl
    refine List.mem_map.2 ⟨(i, dsc), hmem, ?_⟩
    simp [hinf]

/-- Witness for C6: a marker-free heading is listed as pending with its
description kept (short, hence untruncated). -/
theorem c6_listing_shape_w :
    ("T005".toList, "hello".toList.take 60, Status.pending) ∈
      listTasksEntries "### T005: hello".toList :=
  c6_listing_shape.2.1 "### T005: hello".toList "T005".toList
    "hello".toList (by decide) (by decide)

/-! ## Character-class facts -/

theorem clean_spec {c : Char} (h : cleanChar c = true) :
    c ≠ '\n' ∧ c ≠ '(' ∧ c ≠ ')' ∧ c ≠ ':' ∧ c ≠ '#' ∧
      isEmojiClass c = false ∧ (c ≠ ' ' → pyWs c = false) := by
  refine ⟨?_, ?_, ?_, ?_, ?_, ?_, ?_⟩
  · rintro rfl; exact absurd h (by decide)
  · rintro rfl; exact absurd h (by decide)
  · rintro rfl; exact absurd h (by decide)
  · rintro rfl; exact absurd h (by decide)
  · rintro rfl; exact absurd h (by decide)
  · cases hc : isEmojiClass c with
    | false => rfl
    | true =>
      have hmem : c ∈ emojiClassChars := by
        have := hc
        simp only [isEmojiClass, List.contains] at this
        exact (List.elem_iff).1 this
      fin_cases hmem <;> exact absurd h (by decide)
  · intro hsp
    cases hw : pyWs c with
    | false => rfl
    | true =>
      simp only [pyWs, Bool.or_eq_true, decide_eq_true_eq] at hw
      rcases hw with ((((rfl | rfl) | rfl) | rfl) | rfl) | rfl
      · exact absurd rfl hsp
      · exact absurd h (by decide)
      · exact absurd h (by decide)
      · exact absurd h (by decide)
      · exact absurd h (by decide)
      · exact absurd h (by decide)

theorem emojiSeq_chars {st : Status} {c : Char} (h : c ∈ emojiSeq st) :
    pyWs c = false ∧ c ≠ '\n' ∧ c ≠ '(' ∧ c ≠ ':' ∧ c ≠ ' ' ∧
      cleanChar c = false := by
  cases st <;> simp only [emojiSeq] at h <;> fin_cases h <;> decide

theorem safeHead_spec {c : Char} (h : safeHeadB c = true) :
    pyWs c = false ∧ c ≠ '(' ∧ isEmojiClass c = false ∧ c ≠ '\n' := by
  simp only [safeHeadB, Bool.and_eq_true, Bool.not_eq_true',
    beq_eq_false_iff_ne, ne_eq] at h
  obtain ⟨⟨h1, h2⟩, h3⟩ := h
  refine ⟨h1, h2, h3, ?_⟩
  rintro rfl
  simp [pyWs] at h1

theorem head?_mem {l : List Char} {c : Char} (h : l.head? = some c) :
    c ∈ l := by
  cases l with
  | nil => simp at h
  | cons a l => simp at h; subst h; exact List.mem_cons_self _ _

theorem getLast?_mem {l : List Char} {c : Char} (h : l.getLast? = some c) :
    c ∈ l := by
  cases hl : l with
  | nil => subst hl; simp at h
  | cons a l' =>
    subst hl
    rw [List.getLast?_eq_getLast _ (by simp)] at h
    have := List.getLast_mem (l := a :: l') (by simp)
    rwa [Option.some_inj.1 h] at this

theorem cleanDesc_spec {d : List Char} (h : CleanDesc d) :
    d ≠ [] ∧ (∀ c ∈ d, cleanChar c = true) ∧ d.head? ≠ some ' ' ∧
      d.getLast? ≠ some ' ' := by
  simp only [CleanDesc, cleanDescB, Bool.and_eq_true, Bool.not_eq_true',
    beq_eq_false_iff_ne, ne_eq, List.all_eq_true] at h
  obtain ⟨⟨⟨h1, h2⟩, h3⟩, h4⟩ := h
  refine ⟨?_, h2, h3, h4⟩
  rintro rfl
  simp at h1

/-! ## Range, takeWhile and occurrence toolkit -/

theorem mem_revRange0 {j n : Nat} : j ∈ revRange0 n ↔ j ≤ n := by
  induction n with
  | zero => simp [revRange0]
  | succ n ih =>
    simp only [revRange0, List.mem_cons, ih]
    omega

theorem mem_ascRange {k n : Nat} : k ∈ ascRange n ↔ 1 ≤ k ∧ k ≤ n := by
  induction n with
  | zero => simp only [ascRange, List.not_mem_nil, false_iff]; omega
  | succ n ih =>
    simp only [ascRange, List.mem_append, ih, List.mem_singleton]
    omega

theorem ascRange_succ (n : Nat) : ascRange (n + 1) = ascRange n ++ [n + 1] :=
  rfl

theorem drop_takeWhile_length (p : α → Bool) :
    ∀ l : List α, l.drop (l.takeWhile p).length = l.dropWhile p
  | [] => rfl
  | a :: l => by
    rw [List.takeWhile_cons, List.dropWhile_cons]
    by_cases hp : p a = true
    · rw [if_pos hp, if_pos hp]
      simpa using drop_takeWhile_length p l
    · rw [if_neg hp, if_neg hp]
      simp

theorem occursIn_cons (pat : List Char) (c : Char) (s : List Char) :
    occursIn pat (c :: s) =
      (pat.isPrefixOf (c :: s) || occursIn pat s) := by
  simp only [occursIn, List.length_cons]
  rw [List.range_succ_eq_map]
  simp only [List.any_cons, List.any_map]
  congr 1

theorem not_occursIn_head_notMem {p0 : Char} {pr s : List Char}
    (h : p0 ∉ s) : occursIn (p0 :: pr) s = false := by
  induction s with
  | nil => simp [occursIn, List.isPrefixOf]
  | cons c s ih =>
    rw [occursIn_cons]
    have hc : p0 ≠ c := fun he => h (he ▸ List.mem_cons_self c s)
    have hpre : (p0 :: pr).isPrefixOf (c :: s) = false := by
      simp [List.isPrefixOf, hc]
    rw [hpre, ih (fun hm => h (List.mem_cons_of_mem c hm))]
    rfl

theorem occursIn_self_append (pat x : List Char) :
    occursIn pat (pat ++ x) = true := by
  have : pat.isPrefixOf ((pat ++ x).drop 0) = true := by
    simp only [List.drop_zero]
    exact isPrefixOf_self_append pat x
  exact occursIn_of_isPrefixOf_drop this

/-! ## `strip` and `replace` lemmas -/

theorem dropWhile_eq_self_of_head {p : Char → Bool} {l : List Char}
    (h : ∀ c, l.head? = some c → p c = false) : l.dropWhile p = l := by
  cases l with
  | nil => rfl
  | cons a l => rw [List.dropWhile_cons, if_neg (by simp [h a rfl])]

theorem pyStrip_eq_self {l : List Char}
    (hh : ∀ c, l.head? = some c → pyWs c = false)
    (hl : ∀ c, l.getLast? = some c → pyWs c = false) : pyStrip l = l := by
  unfold pyStrip
  rw [dropWhile_eq_self_of_head hh]
  rw [dropWhile_eq_self_of_head (fun c hc => hl c (by
    rwa [List.head?_reverse] at hc))]
  exact List.reverse_reverse l

theorem pyStrip_cons_ws {c : Char} {l : List Char} (h : pyWs c = true) :
    pyStrip (c :: l) = pyStrip l := by
  unfold pyStrip
  rw [List.dropWhile_cons, if_pos h]

theorem removeSeqGo_fuel_eq (pat : List Char) :
    ∀ (f g : Nat) (s : List Char), s.length < f → s.length < g →
      removeSeqGo pat f s = removeSeqGo pat g s := by
  intro f
  induction f with
  | zero => intro g s hf _; exact absurd hf (Nat.not_lt_zero _)
  | succ f ih =>
    intro g s hf hg
    match g, hg with
    | g + 1, hg =>
      match s with
      | [] => rfl
      | c :: s' =>
        have hlf : s'.length < f := by
          have := Nat.lt_succ_iff.mp hf; simpa using this
        have hlg : s'.length < g := by
          have := Nat.lt_succ_iff.mp hg; simpa using this
        simp only [removeSeqGo]
        split
        · rename_i hcond
          have hplen : 1 ≤ pat.length := by
            cases pat with
            | nil => exact absurd rfl hcond.1
            | cons p0 pr => simp
          have hd : ((c :: s').drop pat.length).length < f := by
            rw [List.length_drop]; simp only [List.length_cons]; omega
          have hd' : ((c :: s').drop pat.length).length < g := by
            rw [List.length_drop]; simp only [List.length_cons]; omega
          exact ih g _ hd hd'
        · rw [ih g s' hlf hlg]

theorem removeSeq_cons_not_pre {pat : List Char} {c : Char} {s : List Char}
    (h : pat.isPrefixOf (c :: s) = false) :
    removeSeq pat (c :: s) = c :: removeSeq pat s := by
  unfold removeSeq
  simp only [removeSeqGo, List.length_cons]
  rw [if_neg (by simp [h])]

theorem removeSeq_cons_pre {p0 : Char} {pr : List Char} {c : Char}
    {s : List Char} (h : (p0 :: pr).isPrefixOf (c :: s) = true) :
    removeSeq (p0 :: pr) (c :: s) =
      removeSeq (p0 :: pr) ((c :: s).drop (p0 :: pr).length) := by
  unfold removeSeq
  simp only [removeSeqGo, List.length_cons]
  rw [if_pos ⟨by simp, h⟩]
  have hlen : (p0 :: pr).length ≤ (c :: s).length :=
    isPrefixOf_length_le h
  apply removeSeqGo_fuel_eq
  · rw [List.length_drop]
    simp only [List.length_cons] at hlen ⊢
    omega
  · exact Nat.lt_succ_self _

theorem removeSeq_not_mem {p0 : Char} {pr : List Char} :
    ∀ {s : List Char}, p0 ∉ s → removeSeq (p0 :: pr) s = s
  | [], _ => rfl
  | c :: s, h => by
    have hc : p0 ≠ c := fun he => h (he ▸ List.mem_cons_self c s)
    rw [removeSeq_cons_not_pre (by simp [List.isPrefixOf, hc])]
    rw [removeSeq_not_mem (fun hm => h (List.mem_cons_of_mem c hm))]

/-! ## Tail-of-match lemmas -/

theorem matchEndWS_none_blocker {y u : List Char}
    (hy : ∀ c ∈ y, c ≠ '\n') (hex : ∃ c ∈ y, pyWs c = false) :
    matchEndWS (y ++ u) = none := by
  unfold matchEndWS
  rw [takeWhile_append_left hex]
  apply firstSome_eq_none
  intro j hj
  rw [mem_revRange0] at hj
  have hjlt : j < y.length := lt_of_le_of_lt hj (takeWhile_length_lt hex)
  have hdropa : (y ++ u).drop j = y.drop j ++ u :=
    List.drop_append_of_le_length (le_of_lt hjlt)
  have hne : y.drop j ≠ [] := by
    rw [ne_eq, List.drop_eq_nil_iff]
    omega
  obtain ⟨c0, hc0⟩ : ∃ c0 t, y.drop j = c0 :: t := by
    cases hcc : y.drop j with
    | nil => exact absurd hcc hne
    | cons a l => exact ⟨a, l, rfl⟩
  obtain ⟨t, ht⟩ := hc0
  have hc0mem : c0 ∈ y := List.mem_of_mem_drop (ht ▸ List.mem_cons_self c0 t)
  have hc0ne : c0 ≠ '\n' := hy c0 hc0mem
  rw [if_neg]
  rw [hdropa, ht]
  simp [endOk, hc0ne]

theorem matchEndWS_safeTail {u : List Char} (hu : SafeTail u) :
    matchEndWS u = some 0 := by
  rcases hu with rfl | ⟨c, v, rfl, hc⟩
  · rfl
  · obtain ⟨hws, _, _, _⟩ := safeHead_spec hc
    unfold matchEndWS
    have htw : ('\n' :: c :: v).takeWhile pyWs = ['\n'] := by
      rw [List.takeWhile_cons, if_pos (by decide), List.takeWhile_cons,
        if_neg (by simp [hws])]
    rw [htw]
    show firstSome _ [1, 0] = some 0
    rw [firstSome_cons_none, firstSome_cons_some]
    · simp [endOk]
    · have hcne : c ≠ '\n' := by
        rintro rfl
        simp [pyWs] at hws
      simp [endOk, hcne]

theorem matchTail_safeTail {u : List Char} (hu : SafeTail u) :
    matchTail u = some 0 := by
  have hg3a : g3Paren u = none := by
    rcases hu with rfl | ⟨c, v, rfl, hc⟩
    · rfl
    · obtain ⟨hws, hpar, _, _⟩ := safeHead_spec hc
      unfold g3Paren
      have htw : ('\n' :: c :: v).takeWhile pyWs = ['\n'] := by
        rw [List.takeWhile_cons, if_pos (by decide), List.takeWhile_cons,
          if_neg (by simp [hws])]
      rw [htw]
      simp only [List.length_cons, List.length_nil, List.drop_succ_cons,
        List.drop_zero]
      simp [hpar]
  have hg3b : g3Class u = none := by
    rcases hu with rfl | ⟨c, v, rfl, hc⟩
    · rfl
    · obtain ⟨hws, _, hcl, _⟩ := safeHead_spec hc
      unfold g3Class
      have htw : ('\n' :: c :: v).takeWhile pyWs = ['\n'] := by
        rw [List.takeWhile_cons, if_pos (by decide), List.takeWhile_cons,
          if_neg (by simp [hws])]
      rw [htw]
      simp only [List.length_cons, List.length_nil, List.drop_succ_cons,
        List.drop_zero]
      simp [hcl]
  unfold matchTail
  rw [hg3a, hg3b, matchEndWS_safeTail hu]

theorem matchTail_none_mid {x u : List Char} (hne : x ≠ [])
    (hx : ∀ c ∈ x, c ≠ '\n' ∧ c ≠ '(')
    (hl : ∃ l0, x.getLast? = some l0 ∧ pyWs l0 = false ∧
      isEmojiClass l0 = false) : matchTail (x ++ u) = none := by
  obtain ⟨l0, hl0, hl0ws, hl0cl⟩ := hl
  have hl0mem : l0 ∈ x := getLast?_mem hl0
  have hex : ∃ c ∈ x, pyWs c = false := ⟨l0, hl0mem, hl0ws⟩
  have hyn : ∀ c ∈ x, c ≠ '\n' := fun c hc => (hx c hc).1
  have hdwne : x.dropWhile pyWs ≠ [] := by
    rw [ne_eq, List.dropWhile_eq_nil_iff]
    push_neg
    exact ⟨l0, hl0mem, by simp [hl0ws]⟩
  obtain ⟨cstar, x', hdw⟩ : ∃ cst x', x.dropWhile pyWs = cst :: x' := by
    cases hcc : x.dropWhile pyWs with
    | nil => exact absurd hcc hdwne
    | cons a l => exact ⟨a, l, rfl⟩
  have hsub : ∀ c ∈ cstar :: x', c ∈ x := by
    intro c hc
    exact mem_of_mem_dropWhile (hdw ▸ hc)
  have hcstar_mem : cstar ∈ x := hsub cstar (List.mem_cons_self _ _)
  have hscrut : (x ++ u).drop ((x ++ u).takeWhile pyWs).length =
      cstar :: (x' ++ u) := by
    rw [takeWhile_append_left hex]
    have h1 : (x ++ u).drop (x.takeWhile pyWs).length =
        x.drop (x.takeWhile pyWs).length ++ u :=
      List.drop_append_of_le_length (le_of_lt (takeWhile_length_lt hex))
    rw [h1, drop_takeWhile_length, hdw]
    rfl
  have hlast : (cstar :: x').getLast? = some l0 := by
    have hxsplit := List.takeWhile_append_dropWhile pyWs x
    have h2 : x.getLast? = (x.dropWhile pyWs).getLast? := by
      conv_lhs => rw [← hxsplit]
      exact getLast?_append_right (by rw [hdw]; simp)
    rw [← hdw, ← h2]
    exact hl0
  have hg3a : g3Paren (x ++ u) = none := by
    unfold g3Paren
    simp only [hscrut]
    simp [(hx cstar hcstar_mem).2]
  have hg3b : g3Class (x ++ u) = none := by
    unfold g3Class
    simp only [hscrut]
    cases hcl : isEmojiClass cstar with
    | false => simp [hcl]
    | true =>
      have hcx : cstar ≠ l0 := by
        rintro rfl
        rw [hcl] at hl0cl
        exact absurd hl0cl (by simp)
      have hx'ne : x' ≠ [] := by
        rintro rfl
        simp only [List.getLast?_singleton, Option.some_inj] at hlast
        exact hcx hlast
      have hlast' : x'.getLast? = some l0 := by
        have : (cstar :: x') = [cstar] ++ x' := rfl
        rw [this, getLast?_append_right hx'ne] at hlast
        exact hlast
      have hends : matchEndWS (x' ++ u) = none := by
        apply matchEndWS_none_blocker
        · intro c hc
          exact hyn c (hsub c (List.mem_cons_of_mem _ hc))
        · exact ⟨l0, getLast?_mem hlast', hl0ws⟩
      simp [hcl, hends]
  unfold matchTail
  rw [hg3a, hg3b, matchEndWS_none_blocker hyn hex]

/-! ## Facts about rendered task bodies -/

theorem bodyOf_ne_nil (m : Option Status) {d : List Char}
    (hd : CleanDesc d) : bodyOf m d ≠ [] := by
  obtain ⟨hne, -, -, -⟩ := cleanDesc_spec hd
  cases m with
  | none => exact hne
  | some st => cases st <;> simp [bodyOf, emojiSeq]

theorem bodyOf_chars (m : Option Status) {d : List Char}
    (hd : CleanDesc d) : ∀ c ∈ bodyOf m d, c ≠ '\n' ∧ c ≠ '(' := by
  obtain ⟨-, hcl, -, -⟩ := cleanDesc_spec hd
  intro c hc
  have hofd : c ∈ d → c ≠ '\n' ∧ c ≠ '(' := by
    intro hcd
    obtain ⟨h1, h2, -, -, -, -, -⟩ := clean_spec (hcl c hcd)
    exact ⟨h1, h2⟩
  cases m with
  | none => exact hofd hc
  | some st =>
    simp only [bodyOf, List.mem_append, List.mem_cons] at hc
    rcases hc with hc | hc | hc
    · obtain ⟨-, h1, h2, -, -, -⟩ := emojiSeq_chars hc
      exact ⟨h1, h2⟩
    · subst hc
      exact ⟨by decide, by decide⟩
    · exact hofd hc

theorem bodyOf_getLast (m : Option Status) {d : List Char}
    (hd : CleanDesc d) : (bodyOf m d).getLast? = d.getLast? := by
  obtain ⟨hne, -, -, -⟩ := cleanDesc_spec hd
  cases m with
  | none => rfl
  | some st =>
    show (emojiSeq st ++ (' ' :: d)).getLast? = d.getLast?
    rw [getLast?_append_right (by simp)]
    show ([' '] ++ d).getLast? = d.getLast?
    rw [getLast?_append_right hne]

theorem cleanDesc_last_facts {d : List Char} (hd : CleanDesc d) :
    ∃ l0, d.getLast? = some l0 ∧ pyWs l0 = false ∧
      isEmojiClass l0 = false ∧ l0 ≠ '\n' := by
  obtain ⟨hne, hcl, -, hla⟩ := cleanDesc_spec hd
  obtain ⟨l0, hl0⟩ : ∃ l0, d.getLast? = some l0 := by
    rw [List.getLast?_eq_getLast d hne]
    exact ⟨_, rfl⟩
  have hmem : l0 ∈ d := getLast?_mem hl0
  have hsp : l0 ≠ ' ' := by
    rintro rfl
    exact hla hl0
  obtain ⟨h1, -, -, -, -, h6, h7⟩ := clean_spec (hcl l0 hmem)
  exact ⟨l0, hl0, h7 hsp, h6, h1⟩

theorem bodyOf_head_sep (m : Option Status) {d : List Char}
    (hd : CleanDesc d) :
    ∀ c t, bodyOf m d = c :: t → (pyWs c || c = ':') = false := by
  obtain ⟨hne, hcl, hhd, -⟩ := cleanDesc_spec hd
  intro c t hct
  cases m with
  | none =>
    have hcd : c ∈ d := by rw [bodyOf] at hct; rw [hct]; exact List.mem_cons_self _ _
    have hsp : c ≠ ' ' := by
      rintro rfl
      apply hhd
      rw [bodyOf] at hct
      rw [hct]
      rfl
    obtain ⟨-, -, -, h4, -, -, h7⟩ := clean_spec (hcl c hcd)
    simp [h7 hsp, h4]
  | some st =>
    have hcm : c ∈ emojiSeq st := by
      cases st <;>
        (simp only [bodyOf, emojiSeq, List.cons_append] at hct
         rw [List.cons.injEq] at hct
         rw [← hct.1]
         simp [emojiSeq])
    obtain ⟨h1, -, -, h4, -, -⟩ := emojiSeq_chars hcm
    simp [h1, h4]

/-! ## Matching the update pattern on rendered lines -/

theorem tryMatch_target (a b c : Char) (m : Option Status)
    (d u : List Char) (hd : CleanDesc d) (hu : SafeTail u) :
    tryMatch ['T', a, b, c] (renderItem (.task ['T', a, b, c] m d) ++ u) =
      some ⟨'#' :: '#' :: '#' :: ' ' :: 'T' :: a :: b :: c :: ':' :: [' '],
        bodyOf m d, 10 + (bodyOf m d).length⟩ := by
  have hform : renderItem (.task ['T', a, b, c] m d) ++ u =
      '#' :: '#' :: '#' :: ' ' :: 'T' :: a :: b :: c :: ':' :: ' ' ::
        (bodyOf m d ++ u) := by
    simp [renderItem]
  rw [hform]
  obtain ⟨bh, bt, hbody⟩ : ∃ bh bt, bodyOf m d = bh :: bt := by
    cases hb : bodyOf m d with
    | nil => exact absurd hb (bodyOf_ne_nil m hd)
    | cons x y => exact ⟨x, y, rfl⟩
  have hws1 : List.takeWhile pyWs
      (' ' :: 'T' :: a :: b :: c :: ':' :: ' ' :: (bodyOf m d ++ u)) =
      [' '] := by
    rw [List.takeWhile_cons, if_pos (by decide), List.takeWhile_cons,
      if_neg (by decide)]
  have hpre : List.isPrefixOf ['T', a, b, c]
      ('T' :: a :: b :: c :: ':' :: ' ' :: (bodyOf m d ++ u)) = true := by
    simp [List.isPrefixOf]
  have hsepstop : (pyWs bh || bh = ':') = false := by
    exact bodyOf_head_sep m hd bh bt hbody
  have hsep : List.takeWhile (fun x => pyWs x || x = ':')
      (':' :: ' ' :: (bodyOf m d ++ u)) = [':', ' '] := by
    rw [List.takeWhile_cons, if_pos (by decide), List.takeWhile_cons,
      if_pos (by decide), hbody]
    rw [List.cons_append, List.takeWhile_cons]
    rw [if_neg (by simp only [hsepstop]; simp)]
  have hcap : List.takeWhile (fun x => !(x == '\n'))
      (bodyOf m d ++ u) = bodyOf m d := by
    rw [List.takeWhile_append,
      if_pos (by
        rw [takeWhile_all (fun x hx => by
          simp [(bodyOf_chars m hd x hx).1])])]
    rcases hu with rfl | ⟨c0, v, rfl, -⟩
    · simp
    · rw [List.takeWhile_cons, if_neg (by decide)]
      simp
  obtain ⟨bl, hbl⟩ : ∃ bl, (bodyOf m d).length = bl + 1 := by
    have hpos : 0 < (bodyOf m d).length :=
      List.length_pos.2 (bodyOf_ne_nil m hd)
    exact ⟨(bodyOf m d).length - 1, by omega⟩
  have hinner : ∀ base : Nat, ∀ k ∈ ascRange bl,
      innerK ('#' :: '#' :: '#' :: ' ' :: 'T' :: a :: b :: c :: ':' ::
        ' ' :: (bodyOf m d ++ u)) (bodyOf m d ++ u) base k = none := by
    intro base k hk
    rw [mem_ascRange] at hk
    have hklt : k < (bodyOf m d).length := by omega
    have hdropk : (bodyOf m d ++ u).drop k = (bodyOf m d).drop k ++ u :=
      List.drop_append_of_le_length (le_of_lt hklt)
    have hxne : (bodyOf m d).drop k ≠ [] := by
      rw [ne_eq, List.drop_eq_nil_iff]
      omega
    have hnone : matchTail ((bodyOf m d).drop k ++ u) = none := by
      apply matchTail_none_mid hxne
      · intro x hx
        exact bodyOf_chars m hd x (List.mem_of_mem_drop hx)
      · obtain ⟨l0, hl0, hws, hcl, -⟩ := cleanDesc_last_facts hd
        refine ⟨l0, ?_, hws, hcl⟩
        have hsplit : bodyOf m d =
            (bodyOf m d).take k ++ (bodyOf m d).drop k :=
          (List.take_append_drop k (bodyOf m d)).symm
        have hgl := bodyOf_getLast m hd
        rw [hsplit, getLast?_append_right hxne] at hgl
        rw [hgl, hl0]
    unfold innerK
    rw [hdropk, hnone]
  simp only [tryMatch, hws1, hpre, hsep, List.isEmpty_cons,
    List.length_cons, List.length_nil, List.drop_succ_cons, List.drop_zero]
  rw [if_pos trivial]
  rw [if_neg (show ¬(false = true) by simp)]
  rw [show revRange1 (0 + 1 + 1) = [2, 1] from rfl]
  refine firstSome_cons_some ?_
  unfold outerJ
  simp only [List.drop_succ_cons, List.drop_zero, hcap]
  rw [hbl, ascRange_succ]
  rw [firstSome_append_none (hinner _)]
  refine firstSome_cons_some ?_
  have hdropfull : (bodyOf m d ++ u).drop (bl + 1) = u := by
    rw [← hbl]
    exact List.drop_left _ _
  have htakefull : (bodyOf m d ++ u).take (bl + 1) = bodyOf m d := by
    rw [← hbl]
    exact List.take_left _ _
  unfold innerK
  rw [hdropfull, matchTail_safeTail hu, htakefull]
  simp only [Option.some_inj, MatchR.mk.injEq, and_true, true_and]
  constructor
  · rfl
  · omega

theorem tryMatch_text {tid l : List Char} (u : List Char) (hne : l ≠ [])
    (hh : l.head? ≠ some '#') : tryMatch tid (l ++ u) = none := by
  match l, hne with
  | c0 :: l', _ =>
    have hc0 : ¬ (c0 = '#') := by
      intro h
      exact hh (by rw [List.head?_cons, h])
    rw [List.cons_append]
    cases hlu : l' ++ u with
    | nil => simp [tryMatch]
    | cons x w =>
      cases w with
      | nil => simp [tryMatch]
      | cons y r => simp [tryMatch, hc0]

theorem tryMatch_nontarget_task {ta tb tc ia ib ic : Char}
    (m : Option Status) (d u : List Char)
    (hne : (['T', ia, ib, ic] : List Char) ≠ ['T', ta, tb, tc]) :
    tryMatch ['T', ta, tb, tc]
      (renderItem (.task ['T', ia, ib, ic] m d) ++ u) = none := by
  have hform : renderItem (.task ['T', ia, ib, ic] m d) ++ u =
      '#' :: '#' :: '#' :: ' ' :: 'T' :: ia :: ib :: ic :: ':' :: ' ' ::
        (bodyOf m d ++ u) := by
    simp [renderItem]
  rw [hform]
  have hws1 : List.takeWhile pyWs
      (' ' :: 'T' :: ia :: ib :: ic :: ':' :: ' ' :: (bodyOf m d ++ u)) =
      [' '] := by
    rw [List.takeWhile_cons, if_pos (by decide), List.takeWhile_cons,
      if_neg (by decide)]
  have hpre : List.isPrefixOf ['T', ta, tb, tc]
      ('T' :: ia :: ib :: ic :: ':' :: ' ' :: (bodyOf m d ++ u)) = false := by
    cases hp : List.isPrefixOf ['T', ta, tb, tc]
        ('T' :: ia :: ib :: ic :: ':' :: ' ' :: (bodyOf m d ++ u)) with
    | false => rfl
    | true =>
      exfalso
      simp only [List.isPrefixOf, Bool.and_eq_true, beq_iff_eq] at hp
      obtain ⟨-, h1, h2, h3, -⟩ := hp
      exact hne (by rw [h1, h2, h3])
  simp [tryMatch, hws1, hpre]

/-! ## `replace_status` on rendered bodies -/

theorem pyStrip_clean {d : List Char} (hd : CleanDesc d) : pyStrip d = d := by
  obtain ⟨-, hcl, hh, hla⟩ := cleanDesc_spec hd
  apply pyStrip_eq_self
  · intro c hc
    have hmem : c ∈ d := head?_mem hc
    have hsp : c ≠ ' ' := by rintro rfl; exact hh hc
    exact (clean_spec (hcl c hmem)).2.2.2.2.2.2 hsp
  · intro c hc
    have hmem : c ∈ d := getLast?_mem hc
    have hsp : c ≠ ' ' := by rintro rfl; exact hla hc
    exact (clean_spec (hcl c hmem)).2.2.2.2.2.2 hsp

theorem bodyOf_pyStrip (m : Option Status) {d : List Char}
    (hd : CleanDesc d) : pyStrip (bodyOf m d) = bodyOf m d := by
  apply pyStrip_eq_self
  · intro c hc
    obtain ⟨t, ht⟩ : ∃ t, bodyOf m d = c :: t := by
      cases hb : bodyOf m d with
      | nil => rw [hb] at hc; simp at hc
      | cons x y =>
        rw [hb] at hc
        simp only [List.head?_cons, Option.some_inj] at hc
        exact ⟨y, by rw [hc]⟩
    have := bodyOf_head_sep m hd c t ht
    exact (Bool.or_eq_false_iff.1 this).1
  · intro c hc
    rw [bodyOf_getLast m hd] at hc
    obtain ⟨l0, hl0, hws, -, -⟩ := cleanDesc_last_facts hd
    rw [hl0, Option.some_inj] at hc
    rwa [hc] at hws

theorem removeSeq_seq_clean (s : Status) {d : List Char}
    (hd : CleanDesc d) : removeSeq (emojiSeq s) d = d := by
  obtain ⟨-, hcl, -, -⟩ := cleanDesc_spec hd
  cases s <;>
    (simp only [emojiSeq]
     apply removeSeq_not_mem
     intro hmem
     exact absurd (hcl _ hmem) (by decide))

theorem stripLoopStep_clean (s : Status) {d : List Char}
    (hd : CleanDesc d) : stripLoopStep d (emojiSeq s) = d := by
  unfold stripLoopStep
  rw [removeSeq_seq_clean s hd, pyStrip_clean hd]

theorem removeSeq_seq_other {si st0 : Status} {d : List Char}
    (hd : CleanDesc d) (hne : si ≠ st0) :
    removeSeq (emojiSeq si) (emojiSeq st0 ++ (' ' :: d)) =
      emojiSeq st0 ++ (' ' :: d) := by
  obtain ⟨-, hcl, -, -⟩ := cleanDesc_spec hd
  have hnm : ∀ p0 : Char, cleanChar p0 = false → p0 ≠ ' ' → p0 ∉ d := by
    intro p0 hp0 _ hmem
    rw [hcl p0 hmem] at hp0
    exact absurd hp0 (by simp)
  cases si <;> cases st0 <;>
    first
      | exact absurd rfl hne
      | (simp only [emojiSeq, List.cons_append, List.nil_append]
         repeat rw [removeSeq_cons_not_pre (by simp [List.isPrefixOf])]
         rw [removeSeq_not_mem (hnm _ (by decide) (by decide))])

theorem removeSeq_seq_self (st0 : Status) {d : List Char}
    (hd : CleanDesc d) :
    removeSeq (emojiSeq st0) (emojiSeq st0 ++ (' ' :: d)) = ' ' :: d := by
  obtain ⟨-, hcl, -, -⟩ := cleanDesc_spec hd
  have hnm : ∀ p0 : Char, cleanChar p0 = false → p0 ∉ d := by
    intro p0 hp0 hmem
    rw [hcl p0 hmem] at hp0
    exact absurd hp0 (by simp)
  cases st0 <;>
    (simp only [emojiSeq, List.cons_append, List.nil_append]
     rw [removeSeq_cons_pre (by simp [List.isPrefixOf])]
     simp only [List.length_cons, List.length_nil, List.drop_succ_cons,
       List.drop_zero]
     rw [removeSeq_cons_not_pre (by simp [List.isPrefixOf])]
     rw [removeSeq_not_mem (hnm _ (by decide))])

theorem stripLoopStep_other (si st0 : Status) {d : List Char}
    (hd : CleanDesc d) (hne : si ≠ st0) :
    stripLoopStep (emojiSeq st0 ++ (' ' :: d)) (emojiSeq si) =
      emojiSeq st0 ++ (' ' :: d) := by
  unfold stripLoopStep
  rw [removeSeq_seq_other hd hne]
  exact bodyOf_pyStrip (some st0) hd

theorem stripLoopStep_self (st0 : Status) {d : List Char}
    (hd : CleanDesc d) :
    stripLoopStep (emojiSeq st0 ++ (' ' :: d)) (emojiSeq st0) = d := by
  unfold stripLoopStep
  rw [removeSeq_seq_self st0 hd, pyStrip_cons_ws (by decide),
    pyStrip_clean hd]

theorem replDesc_body (m : Option Status) {d : List Char}
    (hd : CleanDesc d) : replDesc (bodyOf m d) = d := by
  unfold replDesc
  rw [bodyOf_pyStrip m hd]
  cases m with
  | none =>
    show List.foldl stripLoopStep d
      [emojiSeq .pending, emojiSeq .in_progress, emojiSeq .completed,
        emojiSeq .blocked] = d
    simp only [List.foldl, stripLoopStep_clean _ hd]
  | some st0 =>
    show List.foldl stripLoopStep (bodyOf (some st0) d)
      [emojiSeq .pending, emojiSeq .in_progress, emojiSeq .completed,
        emojiSeq .blocked] = d
    cases st0 with
    | pending =>
      simp only [bodyOf, List.foldl]
      rw [stripLoopStep_self .pending hd,
        stripLoopStep_clean .in_progress hd,
        stripLoopStep_clean .completed hd, stripLoopStep_clean .blocked hd]
    | in_progress =>
      simp only [bodyOf, List.foldl]
      rw [stripLoopStep_other .pending .in_progress hd
          (by decide),
        stripLoopStep_self .in_progress hd,
        stripLoopStep_clean .completed hd, stripLoopStep_clean .blocked hd]
    | completed =>
      simp only [bodyOf, List.foldl]
      rw [stripLoopStep_other .pending .completed hd
          (by decide),
        stripLoopStep_other .in_progress .completed hd
          (by decide),
        stripLoopStep_self .completed hd, stripLoopStep_clean .blocked hd]
    | blocked =>
      simp only [bodyOf, List.foldl]
      rw [stripLoopStep_other .pending .blocked hd
          (by decide),
        stripLoopStep_other .in_progress .blocked hd
          (by decide),
        stripLoopStep_other .completed .blocked hd
          (by decide),
        stripLoopStep_self .blocked hd]

/-! ## Item-level scanning lemmas -/

theorem validTaskIdStr_spec {id : List Char}
    (h : validTaskIdStr id = true) :
    ∃ x y z, id = ['T', x, y, z] ∧ x.isDigit = true ∧ y.isDigit = true ∧
      z.isDigit = true := by
  match id, h with
  | [t, x, y, z], h =>
    simp only [validTaskIdStr, Bool.and_eq_true, decide_eq_true_eq] at h
    obtain ⟨⟨⟨h1, h2⟩, h3⟩, h4⟩ := h
    exact ⟨x, y, z, by rw [h1], h2, h3, h4⟩

theorem itemOk_task_spec {id : List Char} {m : Option Status}
    {d : List Char} (h : ItemOk (.task id m d)) :
    validTaskIdStr id = true ∧ CleanDesc d := by
  simpa only [ItemOk, itemOkB, Bool.and_eq_true] using h

theorem itemOk_text_spec {l : List Char} (h : ItemOk (.text l)) :
    l ≠ [] ∧ (∀ c ∈ l, c ≠ '\n') ∧ l.head? ≠ some '#' ∧
      (∀ ch t, l = ch :: t → safeHeadB ch = true) := by
  simp only [ItemOk, itemOkB, Bool.and_eq_true, Bool.not_eq_true',
    List.all_eq_true, beq_eq_false_iff_ne, ne_eq, Bool.not_eq_true] at h
  obtain ⟨⟨⟨h1, h2⟩, h3⟩, h4⟩ := h
  refine ⟨?_, ?_, h3, ?_⟩
  · rintro rfl; simp at h1
  · intro c hc
    have := h2 c hc
    simpa using this
  · intro ch t hl
    rw [hl] at h4
    simpa using h4

theorem isDigit_ne {x : Char} (h : x.isDigit = true) :
    x ≠ '\n' ∧ x ≠ '#' := by
  constructor <;> (rintro rfl; exact absurd h (by decide))

theorem renderItem_task_no_nl {x y z : Char} {m : Option Status}
    {d : List Char} (hd : CleanDesc d) (hx : x.isDigit = true)
    (hy : y.isDigit = true) (hz : z.isDigit = true) :
    ∀ ch ∈ renderItem (.task ['T', x, y, z] m d), ch ≠ '\n' := by
  intro ch hch
  have hflat : ch ∈ ('#' :: '#' :: '#' :: ' ' :: 'T' :: x :: y :: z ::
      ':' :: ' ' :: bodyOf m d) := by
    simpa [renderItem] using hch
  simp only [List.mem_cons] at hflat
  rcases hflat with rfl | rfl | rfl | rfl | rfl | rfl | rfl | rfl | rfl |
    rfl | h
  · decide
  · decide
  · decide
  · decide
  · decide
  · exact (isDigit_ne hx).1
  · exact (isDigit_ne hy).1
  · exact (isDigit_ne hz).1
  · decide
  · decide
  · exact (bodyOf_chars m hd ch h).1

theorem subnF_copy_walk (tid : List Char) (st : Status) :
    ∀ (x rest : List Char), (∀ c ∈ x, c ≠ '\n') →
      subnF tid st false (x ++ rest) =
        ((x ++ (subnF tid st false rest).1), (subnF tid st false rest).2)
  | [], rest, _ => rfl
  | c :: x', rest, h => by
    rw [List.cons_append, subnF_not_start]
    have hbe : (c == '\n') = false :=
      beq_eq_false_iff_ne.2 (h c (List.mem_cons_self _ _))
    rw [hbe]
    rw [subnF_copy_walk tid st x' rest
      (fun a ha => h a (List.mem_cons_of_mem c ha))]
    simp

theorem subnF_skip_line (tid : List Char) (st : Status) {l : List Char}
    (rest : List Char) (hne : l ≠ []) (hnl : ∀ c ∈ l, c ≠ '\n')
    (hm : tryMatch tid (l ++ '\n' :: rest) = none) :
    subnF tid st true (l ++ '\n' :: rest) =
      ((l ++ '\n' :: (subnF tid st true rest).1),
        (subnF tid st true rest).2) := by
  match l, hne with
  | c0 :: x, _ =>
    rw [List.cons_append] at hm ⊢
    rw [subnF_no_match st hm]
    have hbe : (c0 == '\n') = false :=
      beq_eq_false_iff_ne.2 (hnl c0 (List.mem_cons_self _ _))
    rw [hbe]
    rw [subnF_copy_walk tid st x ('\n' :: rest)
      (fun a ha => hnl a (List.mem_cons_of_mem c0 ha))]
    rw [subnF_not_start]
    simp

theorem subnF_skip_last (tid : List Char) (st : Status) {l : List Char}
    (hne : l ≠ []) (hnl : ∀ c ∈ l, c ≠ '\n')
    (hm : tryMatch tid l = none) : subnF tid st true l = (l, 0) := by
  match l, hne with
  | c0 :: x, _ =>
    rw [subnF_no_match st hm]
    have hbe : (c0 == '\n') = false :=
      beq_eq_false_iff_ne.2 (hnl c0 (List.mem_cons_self _ _))
    rw [hbe]
    have hx : x = x ++ [] := by simp
    rw [hx, subnF_copy_walk tid st x []
      (fun a ha => hnl a (List.mem_cons_of_mem c0 ha))]
    simp [subnF, subnGo]

theorem subnF_target_step (a b c : Char) (st : Status)
    (m : Option Status) {d : List Char} (u : List Char)
    (hd : CleanDesc d) (hu : SafeTail u) :
    subnF ['T', a, b, c] st true
        (renderItem (.task ['T', a, b, c] m d) ++ u) =
      ((renderItem (.task ['T', a, b, c] (some st) d) ++
          (subnF ['T', a, b, c] st false u).1),
        (subnF ['T', a, b, c] st false u).2 + 1) := by
  have hm := tryMatch_target a b c m d u hd hu
  have hform : renderItem (.task ['T', a, b, c] m d) ++ u =
      ('#' :: '#' :: '#' :: ' ' :: 'T' :: a :: b :: c :: ':' :: [' ']) ++
        (bodyOf m d ++ u) := by
    simp [renderItem]
  have hlen10 : ('#' :: '#' :: '#' :: ' ' :: 'T' :: a :: b :: c :: ':' ::
      [' '] : List Char).length = 10 := rfl
  have hregroup : renderItem (.task ['T', a, b, c] m d) ++ u =
      (('#' :: '#' :: '#' :: ' ' :: 'T' :: a :: b :: c :: ':' :: [' ']) ++
        bodyOf m d) ++ u := by
    rw [hform, List.append_assoc]
  have hlenpre : (('#' :: '#' :: '#' :: ' ' :: 'T' :: a :: b :: c :: ':' ::
      [' ']) ++ bodyOf m d).length = 10 + (bodyOf m d).length := by
    rw [List.length_append, hlen10]
  obtain ⟨c0, cs', hcs⟩ : ∃ c0 cs',
      renderItem (.task ['T', a, b, c] m d) ++ u = c0 :: cs' := by
    rw [hform]
    exact ⟨'#', _, rfl⟩
  rw [hcs] at hm ⊢
  have htake : (c0 :: cs').take (10 + (bodyOf m d).length) =
      ('#' :: '#' :: '#' :: ' ' :: 'T' :: a :: b :: c :: ':' :: [' ']) ++
        bodyOf m d := by
    rw [← hcs, hregroup, ← hlenpre]
    exact List.take_left _ _
  have hdropm : (c0 :: cs').drop (10 + (bodyOf m d).length) = u := by
    rw [← hcs, hregroup, ← hlenpre]
    exact List.drop_left _ _
  have hlastne : ((c0 :: cs').take (10 + (bodyOf m d).length)).getLast? ≠
      some '\n' := by
    rw [htake]
    obtain ⟨l0, hl0, -, -, hl0nl⟩ := cleanDesc_last_facts hd
    rw [getLast?_append_right (bodyOf_ne_nil m hd), bodyOf_getLast m hd,
      hl0]
    simp [hl0nl]
  have hflag : (((c0 :: cs').take (10 + (bodyOf m d).length)).getLast? ==
      some '\n') = false := by
    cases hq : (((c0 :: cs').take (10 + (bodyOf m d).length)).getLast? ==
        some '\n') with
    | false => rfl
    | true => exact absurd (eq_of_beq hq) hlastne
  have hcons0 : (⟨'#' :: '#' :: '#' :: ' ' :: 'T' :: a :: b :: c :: ':' ::
      [' '], bodyOf m d, 10 + (bodyOf m d).length⟩ : MatchR).consumed ≠
      0 := by
    show 10 + (bodyOf m d).length ≠ 0
    omega
  rw [subnF_match st hm hcons0]
  simp only [hflag, hdropm]
  rw [Prod.mk.injEq]
  refine ⟨?_, rfl⟩
  rw [replDesc_body m hd]
  simp [renderItem, bodyOf]

theorem subnF_target_last (a b c : Char) (st : Status)
    (m : Option Status) {d : List Char} (hd : CleanDesc d) :
    subnF ['T', a, b, c] st true (renderItem (.task ['T', a, b, c] m d)) =
      (renderItem (.task ['T', a, b, c] (some st) d), 1) := by
  have happ : renderItem (.task ['T', a, b, c] m d) =
      renderItem (.task ['T', a, b, c] m d) ++ [] := by simp
  rw [happ, subnF_target_step a b c st m [] hd (Or.inl rfl)]
  simp [subnF, subnGo]

theorem renderDoc_single (i : DocItem) : renderDoc [i] = renderItem i :=
  rfl

theorem renderDoc_cons_cons (i j : DocItem) (is : List DocItem) :
    renderDoc (i :: j :: is) = renderItem i ++ '\n' :: renderDoc (j :: is) :=
  rfl

theorem renderDoc_head_safe {j : DocItem} (is : List DocItem)
    (hj : ItemOk j) :
    ∃ ch v, renderDoc (j :: is) = ch :: v ∧ safeHeadB ch = true := by
  have hrend : ∃ ch v, renderItem j = ch :: v ∧ safeHeadB ch = true := by
    cases j with
    | task id m d => exact ⟨'#', _, rfl, by decide⟩
    | text l =>
      obtain ⟨hne, -, -, hsafe⟩ := itemOk_text_spec hj
      match l, hne with
      | ch :: t, _ => exact ⟨ch, t, rfl, hsafe ch t rfl⟩
  obtain ⟨ch, v, hr, hs⟩ := hrend
  cases is with
  | nil => exact ⟨ch, v, by rw [renderDoc_single, hr], hs⟩
  | cons k is2 =>
    refine ⟨ch, v ++ '\n' :: renderDoc (k :: is2), ?_, hs⟩
    rw [renderDoc_cons_cons, hr]
    rfl

theorem subnF_renderDoc (a b c : Char) (st : Status) :
    ∀ items : List DocItem, DocOk items →
      subnF ['T', a, b, c] st true (renderDoc items) =
        (renderDoc (items.map (setTarget ['T', a, b, c] st)),
          targetCount ['T', a, b, c] items)
  | [], _ => rfl
  | [i], hok => by
    have hi : ItemOk i := hok i (List.mem_singleton.2 rfl)
    cases i with
    | task id m d =>
      obtain ⟨hid, hd⟩ := itemOk_task_spec hi
      obtain ⟨x, y, z, rfl, hx, hy, hz⟩ := validTaskIdStr_spec hid
      by_cases heq : (['T', x, y, z] : List Char) = ['T', a, b, c]
      · rw [heq, renderDoc_single, subnF_target_last a b c st m hd]
        simp [setTarget, targetCount, List.countP_cons, renderDoc_single]
      · have hm := tryMatch_nontarget_task m d [] heq
        rw [List.append_nil] at hm
        rw [renderDoc_single,
          subnF_skip_last _ st (by simp [renderItem])
            (renderItem_task_no_nl hd hx hy hz) hm]
        have hset : setTarget ['T', a, b, c] st (.task ['T', x, y, z] m d) =
            .task ['T', x, y, z] m d := by
          simp [setTarget, heq]
        simp [hset, targetCount, List.countP_cons, renderDoc_single, heq]
        rw [if_neg (fun hcon => heq (by rw [hcon.1, hcon.2.1, hcon.2.2]))]
    | text l =>
      obtain ⟨hne, hnl, hh, -⟩ := itemOk_text_spec hi
      have hm := @tryMatch_text ['T', a, b, c] l [] hne hh
      rw [List.append_nil] at hm
      rw [renderDoc_single]
      show subnF ['T', a, b, c] st true l = _
      rw [subnF_skip_last _ st hne hnl hm]
      simp [setTarget, targetCount, List.countP_cons, renderDoc_single,
        renderItem]
  | i :: j :: is, hok => by
    have hi : ItemOk i := hok i (List.mem_cons_self _ _)
    have hj : ItemOk j := hok j (List.mem_cons_of_mem _ (List.mem_cons_self _ _))
    have hok2 : DocOk (j :: is) := fun k hk => hok k (List.mem_cons_of_mem _ hk)
    have IH := subnF_renderDoc a b c st (j :: is) hok2
    obtain ⟨ch, v, hrd, hsafe⟩ := renderDoc_head_safe is hj
    have hu : SafeTail ('\n' :: renderDoc (j :: is)) :=
      Or.inr ⟨ch, v, by rw [hrd], hsafe⟩
    rw [renderDoc_cons_cons]
    cases i with
    | task id m d =>
      obtain ⟨hid, hd⟩ := itemOk_task_spec hi
      obtain ⟨x, y, z, rfl, hx, hy, hz⟩ := validTaskIdStr_spec hid
      by_cases heq : (['T', x, y, z] : List Char) = ['T', a, b, c]
      · rw [heq, subnF_target_step a b c st m ('\n' :: renderDoc (j :: is))
          hd hu]
        rw [subnF_not_start]
        rw [show (('\n' : Char) == '\n') = true from rfl, IH]
        simp [setTarget, targetCount, List.countP_cons, renderDoc_cons_cons]
      · have hm := tryMatch_nontarget_task m d
          ('\n' :: renderDoc (j :: is)) heq
        rw [subnF_skip_line _ st _ (by simp [renderItem])
          (renderItem_task_no_nl hd hx hy hz) hm, IH]
        simp only [List.map_cons, setTarget, if_neg heq, targetCount,
          List.countP_cons, renderDoc_cons_cons]
        simp [heq]
        exact fun h1 h2 h3 => heq (by rw [h1, h2, h3])
    | text l =>
      obtain ⟨hne, hnl, hh, -⟩ := itemOk_text_spec hi
      have hm := @tryMatch_text ['T', a, b, c] l
        ('\n' :: renderDoc (j :: is)) hne hh
      show subnF ['T', a, b, c] st true
        (l ++ '\n' :: renderDoc (j :: is)) = _
      rw [subnF_skip_line _ st _ hne hnl hm, IH]
      simp [setTarget, targetCount, List.countP_cons, renderDoc_cons_cons,
        renderItem]

/-! ## Matching the list pattern on rendered lines -/

theorem listMatch_target (x y z : Char) (m : Option Status)
    (d u : List Char) (hd : CleanDesc d) (hx : x.isDigit = true)
    (hy : y.isDigit = true) (hz : z.isDigit = true) (hu : SafeTail u) :
    listMatch (renderItem (.task ['T', x, y, z] m d) ++ u) =
      some ⟨['T', x, y, z], bodyOf m d, 10 + (bodyOf m d).length⟩ := by
  have hform : renderItem (.task ['T', x, y, z] m d) ++ u =
      '#' :: '#' :: '#' :: ' ' :: 'T' :: x :: y :: z :: ':' :: ' ' ::
        (bodyOf m d ++ u) := by
    simp [renderItem]
  rw [hform]
  obtain ⟨bh, bt, hbody⟩ : ∃ bh bt, bodyOf m d = bh :: bt := by
    cases hb : bodyOf m d with
    | nil => exact absurd hb (bodyOf_ne_nil m hd)
    | cons p q => exact ⟨p, q, rfl⟩
  have hws1 : List.takeWhile pyWs
      (' ' :: 'T' :: x :: y :: z :: ':' :: ' ' :: (bodyOf m d ++ u)) =
      [' '] := by
    rw [List.takeWhile_cons, if_pos (by decide), List.takeWhile_cons,
      if_neg (by decide)]
  have hsepstop : (pyWs bh || bh = ':') = false :=
    bodyOf_head_sep m hd bh bt hbody
  have hsep : List.takeWhile (fun c => c = ':' || pyWs c)
      (':' :: ' ' :: (bodyOf m d ++ u)) = [':', ' '] := by
    rw [List.takeWhile_cons, if_pos (by decide), List.takeWhile_cons,
      if_pos (by decide), hbody]
    rw [List.cons_append, List.takeWhile_cons]
    rw [if_neg (by
      simp only [Bool.or_eq_false_iff] at hsepstop
      simp [hsepstop.1, hsepstop.2])]
  have hcap : List.takeWhile (fun c => !(c == '\n'))
      (bodyOf m d ++ u) = bodyOf m d := by
    rw [List.takeWhile_append,
      if_pos (by
        rw [takeWhile_all (fun w hw => by
          simp [(bodyOf_chars m hd w hw).1])])]
    rcases hu with rfl | ⟨c0, v, rfl, -⟩
    · simp
    · rw [List.takeWhile_cons, if_neg (by decide)]
      simp
  simp only [listMatch, hws1, hsep, List.isEmpty_cons, List.length_cons,
    List.length_nil, List.drop_succ_cons, List.drop_zero]
  rw [if_pos ⟨trivial, trivial, trivial⟩]
  rw [if_neg (show ¬(false = true) by simp)]
  rw [if_pos ⟨trivial, hx, hy, hz⟩]
  rw [if_neg (show ¬(false = true) by simp)]
  rw [show revRange1 (0 + 1 + 1) = [2, 1] from rfl]
  refine firstSome_cons_some ?_
  simp only [List.drop_succ_cons, List.drop_zero, hcap]
  rw [if_neg (by
    simp only [List.isEmpty_eq_true]
    exact bodyOf_ne_nil m hd)]

theorem listMatch_text {l : List Char} (u : List Char) (hne : l ≠ [])
    (hh : l.head? ≠ some '#') : listMatch (l ++ u) = none := by
  match l, hne with
  | c0 :: l', _ =>
    have hc0 : ¬ (c0 = '#') := by
      intro h
      exact hh (by rw [List.head?_cons, h])
    rw [List.cons_append]
    cases hlu : l' ++ u with
    | nil => simp [listMatch]
    | cons p w =>
      cases w with
      | nil => simp [listMatch]
      | cons q r => simp [listMatch, hc0]

theorem listF_copy_walk :
    ∀ (x rest : List Char), (∀ c ∈ x, c ≠ '\n') →
      listF false (x ++ rest) = listF false rest
  | [], rest, _ => rfl
  | c :: x', rest, h => by
    rw [List.cons_append, listF_not_start]
    have hbe : (c == '\n') = false :=
      beq_eq_false_iff_ne.2 (h c (List.mem_cons_self _ _))
    rw [hbe]
    exact listF_copy_walk x' rest (fun w hw => h w (List.mem_cons_of_mem c hw))

theorem listF_skip_line {l : List Char} (rest : List Char) (hne : l ≠ [])
    (hnl : ∀ c ∈ l, c ≠ '\n') (hm : listMatch (l ++ '\n' :: rest) = none) :
    listF true (l ++ '\n' :: rest) = listF true rest := by
  match l, hne with
  | c0 :: x, _ =>
    rw [List.cons_append] at hm ⊢
    rw [listF_no_match hm]
    have hbe : (c0 == '\n') = false :=
      beq_eq_false_iff_ne.2 (hnl c0 (List.mem_cons_self _ _))
    rw [hbe]
    rw [listF_copy_walk x ('\n' :: rest)
      (fun w hw => hnl w (List.mem_cons_of_mem c0 hw))]
    rw [listF_not_start]
    rfl

theorem listF_skip_last {l : List Char} (hne : l ≠ [])
    (hnl : ∀ c ∈ l, c ≠ '\n') (hm : listMatch l = none) :
    listF true l = [] := by
  match l, hne with
  | c0 :: x, _ =>
    rw [listF_no_match hm]
    have hbe : (c0 == '\n') = false :=
      beq_eq_false_iff_ne.2 (hnl c0 (List.mem_cons_self _ _))
    rw [hbe]
    have hx : x = x ++ [] := by simp
    rw [hx, listF_copy_walk x []
      (fun w hw => hnl w (List.mem_cons_of_mem c0 hw))]
    rfl

theorem listF_entry_step (x y z : Char) (m : Option Status)
    {d : List Char} (u : List Char) (hd : CleanDesc d)
    (hx : x.isDigit = true) (hy : y.isDigit = true) (hz : z.isDigit = true)
    (hu : SafeTail u) :
    listF true (renderItem (.task ['T', x, y, z] m d) ++ u) =
      (['T', x, y, z], bodyOf m d) :: listF false u := by
  have hm := listMatch_target x y z m d u hd hx hy hz hu
  have hform : renderItem (.task ['T', x, y, z] m d) ++ u =
      (('#' :: '#' :: '#' :: ' ' :: 'T' :: x :: y :: z :: ':' :: [' ']) ++
        bodyOf m d) ++ u := by
    simp [renderItem]
  have hlenpre : (('#' :: '#' :: '#' :: ' ' :: 'T' :: x :: y :: z :: ':' ::
      [' ']) ++ bodyOf m d).length = 10 + (bodyOf m d).length := by
    rw [List.length_append]
    rfl
  obtain ⟨c0, cs', hcs⟩ : ∃ c0 cs',
      renderItem (.task ['T', x, y, z] m d) ++ u = c0 :: cs' := by
    rw [hform]
    exact ⟨'#', _, rfl⟩
  rw [hcs] at hm ⊢
  have htake : (c0 :: cs').take (10 + (bodyOf m d).length) =
      ('#' :: '#' :: '#' :: ' ' :: 'T' :: x :: y :: z :: ':' :: [' ']) ++
        bodyOf m d := by
    rw [← hcs, hform, ← hlenpre]
    exact List.take_left _ _
  have hdropm : (c0 :: cs').drop (10 + (bodyOf m d).length) = u := by
    rw [← hcs, hform, ← hlenpre]
    exact List.drop_left _ _
  have hflag : (((c0 :: cs').take (10 + (bodyOf m d).length)).getLast? ==
      some '\n') = false := by
    rw [htake]
    obtain ⟨l0, hl0, -, -, hl0nl⟩ := cleanDesc_last_facts hd
    rw [getLast?_append_right (bodyOf_ne_nil m hd), bodyOf_getLast m hd,
      hl0]
    simp [hl0nl]
  have hcons0 : (⟨['T', x, y, z], bodyOf m d,
      10 + (bodyOf m d).length⟩ : ListMatchR).consumed ≠ 0 := by
    show 10 + (bodyOf m d).length ≠ 0
    omega
  rw [listF_match hm hcons0]
  simp only [hflag, hdropm]
  rw [bodyOf_pyStrip m hd]

theorem listF_entry_last (x y z : Char) (m : Option Status)
    {d : List Char} (hd : CleanDesc d) (hx : x.isDigit = true)
    (hy : y.isDigit = true) (hz : z.isDigit = true) :
    listF true (renderItem (.task ['T', x, y, z] m d)) =
      [(['T', x, y, z], bodyOf m d)] := by
  have happ : renderItem (.task ['T', x, y, z] m d) =
      renderItem (.task ['T', x, y, z] m d) ++ [] := by simp
  rw [happ, listF_entry_step x y z m [] hd hx hy hz (Or.inl rfl)]
  rfl

theorem listF_renderDoc :
    ∀ items : List DocItem, DocOk items →
      listF true (renderDoc items) = items.filterMap rawEntry
  | [], _ => rfl
  | [i], hok => by
    have hi : ItemOk i := hok i (List.mem_singleton.2 rfl)
    cases i with
    | task id m d =>
      obtain ⟨hid, hd⟩ := itemOk_task_spec hi
      obtain ⟨x, y, z, rfl, hx, hy, hz⟩ := validTaskIdStr_spec hid
      rw [renderDoc_single, listF_entry_last x y z m hd hx hy hz]
      rfl
    | text l =>
      obtain ⟨hne, hnl, hh, -⟩ := itemOk_text_spec hi
      have hm := listMatch_text [] hne hh
      rw [List.append_nil] at hm
      rw [renderDoc_single]
      show listF true l = _
      rw [listF_skip_last hne hnl hm]
      rfl
  | i :: j :: is, hok => by
    have hi : ItemOk i := hok i (List.mem_cons_self _ _)
    have hj : ItemOk j :=
      hok j (List.mem_cons_of_mem _ (List.mem_cons_self _ _))
    have hok2 : DocOk (j :: is) := fun k hk =>
      hok k (List.mem_cons_of_mem _ hk)
    have IH := listF_renderDoc (j :: is) hok2
    obtain ⟨ch, v, hrd, hsafe⟩ := renderDoc_head_safe is hj
    have hu : SafeTail ('\n' :: renderDoc (j :: is)) :=
      Or.inr ⟨ch, v, by rw [hrd], hsafe⟩
    rw [renderDoc_cons_cons]
    cases i with
    | task id m d =>
      obtain ⟨hid, hd⟩ := itemOk_task_spec hi
      obtain ⟨x, y, z, rfl, hx, hy, hz⟩ := validTaskIdStr_spec hid
      rw [listF_entry_step x y z m ('\n' :: renderDoc (j :: is)) hd hx hy
        hz hu]
      rw [listF_not_start, show (('\n' : Char) == '\n') = true from rfl, IH]
      rfl
    | text l =>
      obtain ⟨hne, hnl, hh, -⟩ := itemOk_text_spec hi
      have hm := listMatch_text ('\n' :: renderDoc (j :: is)) hne hh
      show listF true (l ++ '\n' :: renderDoc (j :: is)) = _
      rw [listF_skip_line _ hne hnl hm, IH]
      rfl

/-! ## Status detection on rendered bodies -/

theorem hasMarker_word_false (s : Status) {b : List Char}
    (hpar : '(' ∉ b) : occursIn ('(' :: statusKey s ++ [')']) b = false :=
  not_occursIn_head_notMem hpar

theorem occursIn_seq_clean_false (s : Status) {d : List Char}
    (hd : CleanDesc d) : occursIn (emojiSeq s) d = false := by
  obtain ⟨-, hcl, -, -⟩ := cleanDesc_spec hd
  have hnm : ∀ p0 : Char, cleanChar p0 = false → p0 ∉ d := by
    intro p0 hp0 hmem
    rw [hcl p0 hmem] at hp0
    exact absurd hp0 (by simp)
  cases s <;>
    simp only [emojiSeq] <;>
    first
      | exact not_occursIn_head_notMem (hnm 'â' (by decide))
      | exact not_occursIn_head_notMem (hnm 'ð' (by decide))

theorem occursIn_seq_other {si st0 : Status} {d : List Char}
    (hd : CleanDesc d) (hne : si ≠ st0) :
    occursIn (emojiSeq si) (emojiSeq st0 ++ (' ' :: d)) = false := by
  obtain ⟨-, hcl, -, -⟩ := cleanDesc_spec hd
  have hnm : ∀ p0 : Char, cleanChar p0 = false → p0 ∉ d := by
    intro p0 hp0 hmem
    rw [hcl p0 hmem] at hp0
    exact absurd hp0 (by simp)
  cases si <;> cases st0 <;>
    first
      | exact absurd rfl hne
      | (simp only [emojiSeq, List.cons_append, List.nil_append]
         repeat rw [occursIn_cons]
         rw [not_occursIn_head_notMem (hnm 'â' (by decide))]
         simp [List.isPrefixOf])
      | (simp only [emojiSeq, List.cons_append, List.nil_append]
         repeat rw [occursIn_cons]
         rw [not_occursIn_head_notMem (hnm 'ð' (by decide))]
         simp [List.isPrefixOf])

theorem hasMarkerB_body_none (s : Status) {d : List Char}
    (hd : CleanDesc d) : hasMarkerB s (bodyOf none d) = false := by
  obtain ⟨-, hcl, -, -⟩ := cleanDesc_spec hd
  have hpar : '(' ∉ d := by
    intro hmem
    exact absurd (hcl _ hmem) (by decide)
  unfold hasMarkerB bodyOf
  rw [occursIn_seq_clean_false s hd, hasMarker_word_false s hpar]
  rfl

theorem hasMarkerB_body_self (st0 : Status) {d : List Char}
    (hd : CleanDesc d) : hasMarkerB st0 (bodyOf (some st0) d) = true := by
  unfold hasMarkerB bodyOf
  rw [occursIn_self_append]
  rfl

theorem hasMarkerB_body_other {si st0 : Status} {d : List Char}
    (hd : CleanDesc d) (hne : si ≠ st0) :
    hasMarkerB si (bodyOf (some st0) d) = false := by
  have hpar : '(' ∉ bodyOf (some st0) d := by
    intro hmem
    exact (bodyOf_chars (some st0) hd '(' hmem).2 rfl
  unfold hasMarkerB
  rw [hasMarker_word_false si hpar]
  show (occursIn (emojiSeq si) (bodyOf (some st0) d) || false) = false
  rw [show bodyOf (some st0) d = emojiSeq st0 ++ (' ' :: d) from rfl]
  rw [occursIn_seq_other hd hne]
  rfl

theorem inferStatus_body (m : Option Status) {d : List Char}
    (hd : CleanDesc d) : inferStatus (bodyOf m d) = m.getD .pending := by
  cases m with
  | none =>
    unfold inferStatus
    rw [List.find?_eq_none.2 (fun s _ => by
      simp [hasMarkerB_body_none s hd])]
  | some st0 =>
    show inferStatus (bodyOf (some st0) d) = st0
    cases st0 with
    | pending =>
      simp [inferStatus, statusList, List.find?,
        hasMarkerB_body_self .pending hd]
    | in_progress =>
      simp [inferStatus, statusList, List.find?,
        hasMarkerB_body_other hd (show Status.pending ≠ .in_progress by
          decide),
        hasMarkerB_body_self .in_progress hd]
    | completed =>
      simp [inferStatus, statusList, List.find?,
        hasMarkerB_body_other hd (show Status.pending ≠ .completed by
          decide),
        hasMarkerB_body_other hd (show Status.in_progress ≠ .completed by
          decide),
        hasMarkerB_body_self .completed hd]
    | blocked =>
      simp [inferStatus, statusList, List.find?,
        hasMarkerB_body_other hd (show Status.pending ≠ .blocked by decide),
        hasMarkerB_body_other hd (show Status.in_progress ≠ .blocked by
          decide),
        hasMarkerB_body_other hd (show Status.completed ≠ .blocked by
          decide),
        hasMarkerB_body_self .blocked hd]

theorem listed_of_raw :
    ∀ items : List DocItem, DocOk items →
      List.map (fun e => ((e : List Char × List Char × Status).1, e.2.2))
          (List.map
            (fun e => ((e : List Char × List Char).1, e.2.take 60,
              inferStatus e.2))
            (items.filterMap rawEntry)) =
        items.filterMap statusEntry := by
  intro items
  induction items with
  | nil => intro _; rfl
  | cons i is ih =>
    intro hok
    have hok2 : DocOk is := fun k hk => hok k (List.mem_cons_of_mem _ hk)
    cases i with
    | task id m d =>
      obtain ⟨-, hd⟩ :=
        itemOk_task_spec (hok _ (List.mem_cons_self _ _))
      simp only [List.filterMap_cons, rawEntry, statusEntry,
        List.map_cons]
      rw [inferStatus_body m hd, ih hok2]
    | text l =>
      simp only [List.filterMap_cons, rawEntry, statusEntry]
      exact ih hok2

theorem listedStatuses_renderDoc (items : List DocItem)
    (hok : DocOk items) :
    listedStatuses (renderDoc items) = items.filterMap statusEntry := by
  unfold listedStatuses listTasksEntries
  rw [listF_renderDoc items hok]
  exact listed_of_raw items hok

/-! ## `setTarget` preserves well-formedness -/

theorem itemOk_setTarget (tid : List Char) (st : Status) (i : DocItem)
    (h : ItemOk i) : ItemOk (setTarget tid st i) := by
  cases i with
  | task id m d =>
    show itemOkB _ = true
    by_cases hid : id = tid
    · simp only [setTarget, if_pos hid, itemOkB]
      simpa only [itemOkB] using h
    · simp only [setTarget, if_neg hid, itemOkB]
      simpa only [itemOkB] using h
  | text l => exact h

theorem docOk_setTarget (tid : List Char) (st : Status)
    {items : List DocItem} (hok : DocOk items) :
    DocOk (items.map (setTarget tid st)) := by
  intro i hi
  rw [List.mem_map] at hi
  obtain ⟨j, hj, rfl⟩ := hi
  exact itemOk_setTarget tid st j (hok j hj)

theorem docOk_of_all {items : List DocItem}
    (h : items.all itemOkB = true) : DocOk items := by
  intro i hi
  rw [List.all_eq_true] at h
  exact h i hi

theorem setTarget_idem (tid : List Char) (st : Status) (i : DocItem) :
    setTarget tid st (setTarget tid st i) = setTarget tid st i := by
  cases i with
  | task id m d =>
    by_cases hid : id = tid
    · simp [setTarget, hid]
    · simp [setTarget, hid]
  | text l => rfl

theorem map_setTarget_idem (tid : List Char) (st : Status)
    (items : List DocItem) :
    (items.map (setTarget tid st)).map (setTarget tid st) =
      items.map (setTarget tid st) := by
  rw [List.map_map]
  exact List.map_congr_left (fun i _ => setTarget_idem tid st i)

theorem targetCount_map_setTarget (tid : List Char) (st : Status)
    (items : List DocItem) :
    targetCount tid (items.map (setTarget tid st)) =
      targetCount tid items := by
  unfold targetCount
  rw [List.countP_map]
  apply List.countP_congr
  intro i _
  cases i with
  | task id m d =>
    by_cases hid : id = tid
    · simp [setTarget, hid, Function.comp]
    · simp [setTarget, hid, Function.comp]
  | text l => rfl

theorem statusEntry_setTarget (tid : List Char) (st : Status) :
    ∀ items : List DocItem,
      (items.map (setTarget tid st)).filterMap statusEntry =
        (items.filterMap statusEntry).map
          (fun p => if p.1 = tid then (p.1, st) else p)
  | [] => rfl
  | i :: is => by
    have ih := statusEntry_setTarget tid st is
    cases i with
    | task id m d =>
      by_cases hid : id = tid
      · simp only [List.map_cons, setTarget, if_pos hid,
          List.filterMap_cons, statusEntry]
        rw [ih]
        simp [hid]
      · simp only [List.map_cons, setTarget, if_neg hid,
          List.filterMap_cons, statusEntry]
        rw [ih]
    | text l =>
      simp only [List.map_cons, setTarget, List.filterMap_cons,
        statusEntry]
      exact ih

/-! ## C1 and C4 -/

/-- C1 (counterexample).  On the document `### T001: a (pending) b`
followed by a blank line and `x`, updating T001 to `completed` succeeds
and writes new content, but listing the written content still reports
`pending` for T001: the stale `(pending)` word survives inside the
description and wins over the freshly written completed marker, so the
listing does not report the newly set status.  (The written content
also loses the blank line: the match's trailing `\s*$` absorbs it.) -/
theorem c1_counterexample :
    (updateTaskStatus (some "### T001: a (pending) b\n\nx".toList)
          "T001".toList "completed".toList).success = true ∧
      (updateTaskStatus (some "### T001: a (pending) b\n\nx".toList)
            "T001".toList "completed".toList).written.map listedStatuses =
        some [("T001".toList, Status.pending)] := by
  constructor
  · decide
  · decide

/-- C1 (amended).  For a well-formed document whose task identifier
`Tabc` occurs exactly once, updating it to status `st` succeeds and
writes the document re-rendered with only that heading's marker
replaced; listing the written document reports `st` for that identifier
and every other task's status unchanged, in the original order. -/
theorem c1_update_then_list (a b c : Char) (st : Status)
    (items : List DocItem) (hok : DocOk items)
    (hone : targetCount ['T', a, b, c] items = 1) :
    updateTaskStatus (some (renderDoc items)) ['T', a, b, c]
        (statusKey st) =
      ⟨true, some (renderDoc (items.map (setTarget ['T', a, b, c] st))),
        [.updated st]⟩ ∧
      listedStatuses
          (renderDoc (items.map (setTarget ['T', a, b, c] st))) =
        (items.filterMap statusEntry).map
          (fun p => if p.1 = ['T', a, b, c] then (p.1, st) else p) := by
  have hr : subnTask ['T', a, b, c] st (renderDoc items) =
      (renderDoc (items.map (setTarget ['T', a, b, c] st)), 1) := by
    show subnF ['T', a, b, c] st true (renderDoc items) = _
    rw [subnF_renderDoc a b c st items hok, hone]
  constructor
  · simp only [updateTaskStatus, statusOfString_key, hr]
    rw [if_neg (by decide), if_neg (by decide)]
  · rw [listedStatuses_renderDoc _ (docOk_setTarget ['T', a, b, c] st hok),
      statusEntry_setTarget]

theorem c1_update_then_list_w :
    ([DocItem.task "T001".toList none "alpha".toList,
        DocItem.text "some notes".toList,
        DocItem.task "T002".toList (some .pending) "beta".toList].all
          itemOkB = true) ∧
      targetCount ['T', '0', '0', '1']
          [DocItem.task "T001".toList none "alpha".toList,
            DocItem.text "some notes".toList,
            DocItem.task "T002".toList (some .pending) "beta".toList] =
        1 ∧
      (updateTaskStatus
          (some (renderDoc
            [DocItem.task "T001".toList none "alpha".toList,
              DocItem.text "some notes".toList,
              DocItem.task "T002".toList (some .pending) "beta".toList]))
          ['T', '0', '0', '1'] (statusKey .completed) =
        ⟨true,
          some (renderDoc
            ([DocItem.task "T001".toList none "alpha".toList,
              DocItem.text "some notes".toList,
              DocItem.task "T002".toList (some .pending) "beta".toList].map
                (setTarget ['T', '0', '0', '1'] .completed))),
          [.updated .completed]⟩ ∧
        listedStatuses
            (renderDoc
              ([DocItem.task "T001".toList none "alpha".toList,
                DocItem.text "some notes".toList,
                DocItem.task "T002".toList (some .pending)
                  "beta".toList].map
                  (setTarget ['T', '0', '0', '1'] .completed))) =
          ([DocItem.task "T001".toList none "alpha".toList,
            DocItem.text "some notes".toList,
            DocItem.task "T002".toList (some .pending)
              "beta".toList].filterMap statusEntry).map
            (fun p =>
              if p.1 = ['T', '0', '0', '1'] then (p.1, Status.completed)
              else p)) :=
  ⟨by decide, by decide,
    c1_update_then_list '0' '0' '1' .completed _
      (docOk_of_all (by decide)) (by decide)⟩

/-- C4 (counterexample).  On `### T001: fix (a) (b)` the update to
`completed` is not idempotent: the first run deletes the trailing
`(b)` (captured by the optional status group) and yields
`### T001: [completed-marker] fix (a)`; running the same update again
deletes `(a)` as well, so the second result differs byte-for-byte from
the first. -/
theorem c4_counterexample :
    (subnTask "T001".toList .completed
        (subnTask "T001".toList .completed
          "### T001: fix (a) (b)".toList).1).1 ≠
      (subnTask "T001".toList .completed
        "### T001: fix (a) (b)".toList).1 := by
  decide

/-- C4 (amended).  On well-formed documents the update is idempotent:
applying the same status update twice yields exactly the same content
and match count as applying it once (any marker already present on a
matched heading is stripped before re-annotating, so markers never
accumulate). -/
theorem c4_idempotent_update (a b c : Char) (st : Status)
    (items : List DocItem) (hok : DocOk items) :
    subnTask ['T', a, b, c] st
        (subnTask ['T', a, b, c] st (renderDoc items)).1 =
      subnTask ['T', a, b, c] st (renderDoc items) := by
  have h1 : subnTask ['T', a, b, c] st (renderDoc items) =
      (renderDoc (items.map (setTarget ['T', a, b, c] st)),
        targetCount ['T', a, b, c] items) :=
    subnF_renderDoc a b c st items hok
  have h2 : subnTask ['T', a, b, c] st
      (renderDoc (items.map (setTarget ['T', a, b, c] st))) =
      (renderDoc ((items.map (setTarget ['T', a, b, c] st)).map
          (setTarget ['T', a, b, c] st)),
        targetCount ['T', a, b, c]
          (items.map (setTarget ['T', a, b, c] st))) :=
    subnF_renderDoc a b c st _ (docOk_setTarget ['T', a, b, c] st hok)
  rw [h1]
  show subnTask ['T', a, b, c] st
      (renderDoc (items.map (setTarget ['T', a, b, c] st))) = _
  rw [h2, map_setTarget_idem, targetCount_map_setTarget]

theorem c4_idempotent_update_w :
    ([DocItem.task "T001".toList (some .pending) "fix parser".toList,
        DocItem.text "notes".toList].all itemOkB = true) ∧
      subnTask ['T', '0', '0', '1'] .completed
          (subnTask ['T', '0', '0', '1'] .completed
            (renderDoc
              [DocItem.task "T001".toList (some .pending)
                "fix parser".toList,
                DocItem.text "notes".toList])).1 =
        subnTask ['T', '0', '0', '1'] .completed
          (renderDoc
            [DocItem.task "T001".toList (some .pending)
              "fix parser".toList,
              DocItem.text "notes".toList]) :=
  ⟨by decide,
    c4_idempotent_update '0' '0' '1' .completed _
      (docOk_of_all (by decide))⟩

end TaskTrack
